import Mathlib

/-!
Formal model of the vali-rofs (VaFs) image-format engine, shallowly embedded
from the C sources in `src/libvafs`.  Machine integers are modelled as `Nat`
or `Int` with explicit wrapping or clamping where the C arithmetic demands
it.  Each section names the C file and function it embeds.
-/

set_option linter.unusedVariables false
set_option linter.unnecessarySeqFocus false

namespace VaFs

/-! ## Constants from `src/libvafs/private.h` and `include/vafs/vafs.h` -/

def VA_FS_INVALID_BLOCK : Nat := 0xFFFF

def VA_FS_INVALID_OFFSET : Nat := 0xFFFFFFFF

def VA_FS_DESCRIPTOR_BLOCK_SIZE : Nat := 8 * 1024

def VAFS_PATH_MAX : Nat := 4096

def VAFS_NAME_MAX : Nat := 255

def VA_FS_DESCRIPTOR_TYPE_FILE : Nat := 0x01

def VA_FS_DESCRIPTOR_TYPE_DIRECTORY : Nat := 0x02

def VA_FS_DESCRIPTOR_TYPE_SYMLINK : Nat := 0x03

/-- POSIX file-kind bits used by `utils.c` through `sys/stat.h`. -/
def S_IFDIR : Nat := 0o40000

def S_IFREG : Nat := 0o100000

/-- C `INT_MAX`, the sentinel initial value of `cache_enum_context.uses`. -/
def INT_MAX : Nat := 2 ^ 31 - 1

/-- C `UINT_MAX`, the sentinel initial value of `cache_enum_context.index`. -/
def UINT_MAX : Nat := 2 ^ 32 - 1

/-! ## Memory stream device, from `src/libvafs/streamdevice.c`

The memory backend stores a growable byte buffer together with its
`Capacity`, the number of valid bytes `Size`, and the cursor `Position`.
Bytes are `Nat` values; the C `long` fields are modelled as `Int` so the
clamping arithmetic of `__memory_seek` is represented exactly. -/

inductive Whence where
  | set
  | cur
  | seekEnd
deriving DecidableEq, Repr

structure MemoryDevice where
  buffer : List Nat
  capacity : Int
  size : Int
  position : Int
deriving Repr

/-- Embeds `__memory_seek` (streamdevice.c:484-508).  Returns the device
(whose position field is updated) and the value the C function returns. -/
def __memory_seek (dev : MemoryDevice) (offset : Int) (whence : Whence) :
    MemoryDevice × Int :=
  if offset = 0 ∧ whence = Whence.cur then
    (dev, dev.position)
  else
    let pos : Int :=
      match whence with
      | Whence.set => offset
      | Whence.cur => dev.position + offset
      | Whence.seekEnd => dev.size + offset
    let pos := min (max pos 0) dev.size
    ({ dev with position := pos }, pos)

/-- Embeds `__grow_buffer` (streamdevice.c:459-476); the grown region of the
C `realloc` is uninitialised, represented here by zero bytes (it is never
read before being written, because reads stop at `Size`). -/
def __grow_buffer (dev : MemoryDevice) (length : Nat) : MemoryDevice :=
  { dev with
    capacity := dev.capacity + length
    buffer := dev.buffer ++ List.replicate length 0 }

/-- Overwrites `bytes.length` bytes of `buf` starting at index `p`
(the `memcpy` in `__memory_write`). -/
def listWriteAt (buf : List Nat) (p : Nat) (bytes : List Nat) : List Nat :=
  buf.take p ++ bytes ++ buf.drop (p + bytes.length)

/-- The growth loop at the head of `__memory_write` (streamdevice.c:525-529):
grow the buffer until the bytes fit past the cursor; the C `while` loop
reaches its goal after at most one growth step. -/
def __memory_write_grown (dev : MemoryDevice) (bytes : List Nat) : MemoryDevice :=
  if (bytes.length : Int) > dev.capacity - dev.position then
    __grow_buffer dev ((bytes.length : Int) - (dev.capacity - dev.position)).toNat
  else dev

/-- Embeds `__memory_write` (streamdevice.c:520-541): grow the buffer so the
bytes fit, copy them at the cursor, advance the cursor, and advance `Size`
when the cursor moved past it. -/
def __memory_write (dev : MemoryDevice) (bytes : List Nat) :
    MemoryDevice × Nat :=
  ({ __memory_write_grown dev bytes with
      buffer := listWriteAt (__memory_write_grown dev bytes).buffer
        (__memory_write_grown dev bytes).position.toNat bytes
      position := (__memory_write_grown dev bytes).position + bytes.length
      size :=
        if (__memory_write_grown dev bytes).position + bytes.length >
            (__memory_write_grown dev bytes).size then
          (__memory_write_grown dev bytes).position + bytes.length
        else (__memory_write_grown dev bytes).size },
    bytes.length)

/-- Embeds `__memory_read` (streamdevice.c:510-518): copy
`min length (Size - Position)` bytes from the cursor and advance it. -/
def __memory_read (dev : MemoryDevice) (length : Nat) :
    MemoryDevice × List Nat :=
  let byteCount : Nat := min length (dev.size - dev.position).toNat
  ({ dev with position := dev.position + byteCount },
    (dev.buffer.drop dev.position.toNat).take byteCount)

/-! ## Block cache, from `src/libvafs/cache/blockcache.c`

The two hashtables (cache and heatmap) are modelled as lists; the list
order stands for the hashtable's enumeration order, which the C code does
not otherwise constrain ("ties broken arbitrarily"). -/

structure BlockEntry where
  index : Nat
  buffer : List Nat
  size : Nat
  uses : Nat
deriving Repr, DecidableEq

structure HeatmapEntry where
  index : Nat
  hits : Nat
deriving Repr, DecidableEq

structure VaFsBlockCache where
  max_blocks : Nat
  heatmap : List HeatmapEntry
  cache : List BlockEntry
deriving Repr, DecidableEq

/-- Embeds `__heatmap_hit` (blockcache.c:124-135): bump the hit count of the
entry holding this index (hashtable keys are unique, so at most one entry
matches), or insert a fresh entry with one hit. -/
def __heatmap_hit (hm : List HeatmapEntry) (index : Nat) : List HeatmapEntry :=
  match hm with
  | [] => [{ index := index, hits := 1 }]
  | e :: rest =>
      if e.index = index then { e with hits := e.hits + 1 } :: rest
      else e :: __heatmap_hit rest index

/-- Embeds `__heatmap_hits` (blockcache.c:137-141). -/
def __heatmap_hits (hm : List HeatmapEntry) (index : Nat) : Nat :=
  match hm with
  | [] => 0
  | e :: rest => if e.index = index then e.hits else __heatmap_hits rest index

/-- Lookup of a block entry by index (`vafs_hashtable_get` keyed by
`__cache_cmp`, blockcache.c:253-258, which compares indices). -/
def cacheFind (entries : List BlockEntry) (index : Nat) : Option BlockEntry :=
  match entries with
  | [] => none
  | b :: rest => if b.index = index then some b else cacheFind rest index

/-- Increments the `uses` counter of the entry holding this index (the
in-place `block->uses++` of `vafs_cache_get`). -/
def cacheBumpUses (entries : List BlockEntry) (index : Nat) : List BlockEntry :=
  match entries with
  | [] => []
  | b :: rest =>
      if b.index = index then { b with uses := b.uses + 1 } :: rest
      else b :: cacheBumpUses rest index

/-- Embeds `vafs_cache_get` (blockcache.c:143-172).  It always records a
heatmap hit (the C records the hit before the lookup, which never reads
the heatmap); on a cache hit it additionally bumps the entry's `uses`
counter and returns the stored buffer and size. -/
def vafs_cache_get (c : VaFsBlockCache) (index : Nat) :
    VaFsBlockCache × Option (List Nat × Nat) :=
  match cacheFind c.cache index with
  | none => ({ c with heatmap := __heatmap_hit c.heatmap index }, none)
  | some b =>
      ({ c with
          heatmap := __heatmap_hit c.heatmap index
          cache := cacheBumpUses c.cache index },
        some (b.buffer, b.size))

/-- Embeds the `__cache_enum` scan (blockcache.c:260-269) as a fold over the
enumeration order, starting from the sentinel context
`(UINT_MAX, INT_MAX)` and taking an entry whenever its `uses` is strictly
below the context's. -/
def __cache_enum_step (ctx : Nat × Nat) (b : BlockEntry) : Nat × Nat :=
  if b.uses < ctx.2 then (b.index, b.uses) else ctx

def __cache_enum_fold (entries : List BlockEntry) : Nat × Nat :=
  entries.foldl __cache_enum_step (UINT_MAX, INT_MAX)

/-- Removes the first entry with the given block index
(`vafs_hashtable_remove` keyed by `__cache_cmp`, which compares indices). -/
def cacheRemove (entries : List BlockEntry) (index : Nat) : List BlockEntry :=
  match entries with
  | [] => []
  | b :: rest =>
      if b.index = index then rest else b :: cacheRemove rest index

/-- Embeds `__eject_lowuse` (blockcache.c:174-194): nothing happens below
capacity; otherwise the scan's winner is removed, unless the sentinel index
survived the scan. -/
def __eject_lowuse (c : VaFsBlockCache) : VaFsBlockCache :=
  if c.cache.length < c.max_blocks then c
  else if (__cache_enum_fold c.cache).1 = UINT_MAX then c
  else { c with cache := cacheRemove c.cache (__cache_enum_fold c.cache).1 }

/-- Embeds `vafs_cache_set` (blockcache.c:209-245).  Returns the new cache
state and `true` when the C function returns 0.  A block with at most one
heatmap hit is silently not cached; a duplicate index is refused with
`EEXIST`; otherwise the low-use entry is ejected when at capacity and a
private copy of the buffer is stored with `uses = 1`. -/
def vafs_cache_set (c : VaFsBlockCache) (index : Nat) (buffer : List Nat)
    (size : Nat) : VaFsBlockCache × Bool :=
  if __heatmap_hits c.heatmap index ≤ 1 then
    (c, true)
  else if (cacheFind c.cache index).isSome then
    (c, false)
  else
    ({ __eject_lowuse c with
        cache := (__eject_lowuse c).cache ++
          [{ index := index, buffer := buffer, size := size, uses := 1 }] },
      true)

/-- Embeds `vafs_cache_create` (blockcache.c:92-110) for a non-negative
`maxBlocks`: both hashtables start empty. -/
def vafs_cache_create (maxBlocks : Nat) : VaFsBlockCache :=
  { max_blocks := maxBlocks, heatmap := [], cache := [] }

/-- One client-visible cache operation, used to talk about arbitrary
operation sequences against a cache. -/
inductive CacheOp where
  | get (index : Nat)
  | setOp (index : Nat) (buffer : List Nat) (size : Nat)
deriving Repr, DecidableEq

def cacheStep (c : VaFsBlockCache) : CacheOp → VaFsBlockCache
  | CacheOp.get i => (vafs_cache_get c i).1
  | CacheOp.setOp i buf sz => (vafs_cache_set c i buf sz).1

def cacheRun (c : VaFsBlockCache) (ops : List CacheOp) : VaFsBlockCache :=
  ops.foldl cacheStep c

/-- Number of `get` requests for block `i` in an operation sequence. -/
def countGets (i : Nat) (ops : List CacheOp) : Nat :=
  ops.countP (fun op => match op with
    | CacheOp.get j => j = i
    | _ => false)

/-- Membership of a block index in the cache proper (not the heatmap). -/
def cacheMem (c : VaFsBlockCache) (i : Nat) : Prop :=
  ∃ b ∈ c.cache, b.index = i

instance (c : VaFsBlockCache) (i : Nat) : Decidable (cacheMem c i) := by
  unfold cacheMem
  infer_instance

/-- The heatmap invariant: a block present in the cache proper has at least
two recorded heatmap hits. -/
def cacheGood (c : VaFsBlockCache) (i : Nat) : Prop :=
  cacheMem c i → 2 ≤ __heatmap_hits c.heatmap i

/-! ## Symlink target resolution, from `src/libvafs/utils.c`

The output buffer is modelled as the list of characters written so far
(its length is the C index `j`); appending writes at `j`, and the `..`
backtracking truncates the list.  `bufferLength` is the capacity bound the
C loops check before every write. -/

/-- The `while (j > 0 && buffer[j-1] != '/') j--` loop of the `../` case
(utils.c:134-136). -/
def __backtrack_loop (b : List Char) : List Char :=
  if b = [] then b
  else if b.getLast? = some '/' then b
  else __backtrack_loop b.dropLast
termination_by b.length
decreasing_by
  rename_i hne _
  have : b.length ≠ 0 := fun h => hne (List.length_eq_zero.1 h)
  simp [List.length_dropLast]
  omega

/-- The `if (j > 0) { j--; while ... }` backtracking of the `../` case
(utils.c:130-138). -/
def __backtrack (buf : List Char) : List Char :=
  if buf = [] then buf else __backtrack_loop buf.dropLast

/-- The base-copy loop of `__vafs_resolve_symlink` (utils.c:100-110):
copy the base prefix, collapsing separator runs and dropping a leading
separator, stopping when the buffer is full. -/
def __resolve_base (base : List Char) (buf : List Char) (bufferLength : Nat) :
    List Char :=
  match base with
  | [] => buf
  | c :: rest =>
      if buf.length < bufferLength then
        if c = '/' then
          if 0 < buf.length ∧ buf.getLast? ≠ some '/' then
            __resolve_base rest (buf ++ ['/']) bufferLength
          else
            __resolve_base rest buf bufferLength
        else
          __resolve_base rest (buf ++ [c]) bufferLength
      else buf

/-- The target loop of `__vafs_resolve_symlink` (utils.c:114-143): collapse
separators; skip a `./` pair; on `../` backtrack one component; any other
`.` character falls through both lookahead tests and, because the final
`else` is attached to the dot test, is dropped from the output; all other
characters are copied.  Lookahead past the end of the target reads the C
string terminator and matches no test. -/
def __resolve_target (t : List Char) (buf : List Char) (bufferLength : Nat) :
    List Char :=
  match t with
  | [] => buf
  | c :: rest =>
      if buf.length < bufferLength then
        if c = '/' then
          if 0 < buf.length ∧ buf.getLast? ≠ some '/' then
            __resolve_target rest (buf ++ ['/']) bufferLength
          else
            __resolve_target rest buf bufferLength
        else if c = '.' then
          if rest.head? = some '/' then
            __resolve_target rest.tail buf bufferLength
          else if rest.head? = some '.' ∧ rest.tail.head? = some '/' then
            __resolve_target rest.tail.tail (__backtrack buf) bufferLength
          else
            __resolve_target rest buf bufferLength
        else
          __resolve_target rest (buf ++ [c]) bufferLength
      else buf
termination_by t.length
decreasing_by
  all_goals simp [List.length_tail]
  all_goals omega

/-- Embeds `__vafs_resolve_symlink` (utils.c:84-150): clean-copy the base
prefix, then append the canonicalized target.  The result list is the
resolved path; its length is the value the C function returns. -/
def __vafs_resolve_symlink (base target : List Char) (bufferLength : Nat) :
    List Char :=
  __resolve_target target (__resolve_base base [] bufferLength) bufferLength

/-- Two adjacent separators never appear. -/
def noDoubleSlash : List Char → Bool
  | [] => true
  | [_] => true
  | a :: b :: rest => (!(a = '/' && b = '/')) && noDoubleSlash (b :: rest)

/-! ## Path lookup and `vafs_path_stat`, from `src/libvafs/utils.c`

The reader's materialized directory tree is modelled as a list of entries
(the claim-relevant behaviour does not depend on lazy loading).  The walk
restarts from root on symlinks with a fuel bound; the C has no such bound
and would recurse without limit on a symlink cycle. -/

inductive StatTree where
  | file (name : List Char) (permissions : Nat) (fileLength : Nat)
  | dir (name : List Char) (permissions : Nat) (children : List StatTree)
  | symlink (name : List Char) (target : List Char)

def statTreeName : StatTree → List Char
  | StatTree.file n _ _ => n
  | StatTree.dir n _ _ => n
  | StatTree.symlink n _ => n

/-- First entry whose name equals the token (`strcmp` over the entry
list, utils.c:183-231). -/
def statFind : List StatTree → List Char → Option StatTree
  | [], _ => none
  | e :: rest, tok => if statTreeName e = tok then some e else statFind rest tok

/-- Embeds `__vafs_is_root_path` (utils.c:28-39). -/
def __vafs_is_root_path (path : List Char) : Bool :=
  (path.length = 1 && path.head? = some '/') || path.length == 0

/-- Embeds `__vafs_pathtoken` (utils.c:41-82): skip leading separators, copy
the characters up to the next separator, fail (returning 0 characters
consumed) on an empty path or when the token would exceed the token
buffer. -/
def __vafs_pathtoken (path : List Char) (tokenSize : Nat) : List Char × Nat :=
  if path.length = 0 then ([], 0)
  else
    let skipped := (path.takeWhile (fun c => c = '/')).length
    let tok := (path.drop skipped).takeWhile (fun c => ¬ c = '/')
    if tok.length > tokenSize then ([], 0)
    else (tok, skipped + tok.length)

mutual

/-- Embeds `vafs_path_stat` (utils.c:152-237).  A root path is answered
with the hard-coded `S_IFDIR | 0755` and size 0 before the tree (and in
particular the stored root descriptor) is consulted; otherwise the tree is
walked token by token.  The result is `some (mode, size)`. -/
def vafs_path_stat (fuel : Nat) (root : List StatTree) (path : List Char) :
    Option (Nat × Nat) :=
  if __vafs_is_root_path path then some (S_IFDIR ||| 0o755, 0)
  else __stat_walk fuel root root path path
termination_by (fuel, path.length + 1)
decreasing_by
  exact Prod.Lex.right _ (Nat.lt_succ_self _)

/-- The token loop of `vafs_path_stat`; `remaining` is the yet-unconsumed
suffix of `fullPath` (the C pointer `remainingPath`). -/
def __stat_walk (fuel : Nat) (root entries : List StatTree)
    (fullPath remaining : List Char) : Option (Nat × Nat) :=
  if hrem : remaining = [] then none
  else
    match htok : __vafs_pathtoken remaining (VAFS_NAME_MAX + 1) with
    | (tok, consumed) =>
      if hc : consumed = 0 then none
      else
        match statFind entries tok with
        | none => none
        | some (StatTree.dir _ perms children) =>
            if remaining.drop consumed = [] then some (S_IFDIR ||| perms, 0)
            else __stat_walk fuel root children fullPath (remaining.drop consumed)
        | some (StatTree.symlink _ target) =>
            match fuel with
            | 0 => none
            | fuel2 + 1 =>
                vafs_path_stat fuel2 root
                  (__vafs_resolve_symlink
                    (fullPath.take (fullPath.length -
        (remaining.drop consumed).length))
                    target VAFS_PATH_MAX)
        | some (StatTree.file _ perms len) =>
            if remaining.drop consumed = [] then some (S_IFREG ||| perms, len)
            else none
termination_by (fuel, remaining.length)
decreasing_by
  all_goals try simp_wf
  · apply Prod.Lex.right
    have hne : remaining.length ≠ 0 := fun h => hrem (List.length_eq_zero.1 h)
    have hld : (remaining.drop consumed).length = remaining.length - consumed :=
      List.length_drop _ _
    omega
  · exact Prod.Lex.left _ _ (Nat.lt_succ_self _)

end

/-! ## Writer tree, from `src/libvafs/directory.c` (write mode)

A writer directory holds its children in the order of the C `Entries`
linked list: `__add_file_entry`, `__add_directory_entry` and
`__add_symlink_entry` all push the new entry at the head, so the head of
the list is the child created last.  Names and targets are byte lists;
files carry the data-stream position and length their descriptor received
from `vafs_file_write`. -/

inductive WEntry where
  | file (name : List Nat) (permissions dataIndex dataOffset fileLength : Nat)
  | dir (name : List Nat) (permissions : Nat) (entries : List WEntry)
  | symlink (name : List Nat) (target : List Nat)

/-- Embeds `vafs_directory_create_root` (directory.c:95-119): a writer root
named "root" with permissions 0777 and no children. -/
def vafs_directory_create_root : WEntry :=
  WEntry.dir [114, 111, 111, 116] 0o777 []

def wentryPermissions : WEntry → Nat
  | WEntry.file _ p _ _ _ => p
  | WEntry.dir _ p _ => p
  | WEntry.symlink _ _ => 0

/-! ## On-disk encoding of descriptors

Little-endian field encodings for the packed structs of `private.h`:
`VaFsDescriptor` (u16 Type, u16 Length), `VaFsBlockPosition`
(u32 Index, u32 Offset), `VaFsFileDescriptor` (20 bytes + name),
`VaFsDirectoryDescriptor` (16 bytes + name), `VaFsSymlinkDescriptor`
(8 bytes + name + target) and `VaFsDirectoryHeader` (u32 Count).
Field values wrap exactly as the C integer types do. -/

def encodeU16 (n : Nat) : List Nat :=
  [n % 256, n / 256 % 256]

def encodeU32 (n : Nat) : List Nat :=
  [n % 256, n / 256 % 256, n / 65536 % 256, n / 16777216 % 256]

def decodeU16 (b : List Nat) : Nat :=
  b.getD 0 0 + 256 * b.getD 1 0

def decodeU32 (b : List Nat) : Nat :=
  b.getD 0 0 + 256 * b.getD 1 0 + 65536 * b.getD 2 0 + 16777216 * b.getD 3 0

/-- Embeds `__get_descriptor_size` (directory.c:121-134), the `sizeof` of
the typed descriptor structs. -/
def __get_descriptor_size (ty : Nat) : Nat :=
  if ty = VA_FS_DESCRIPTOR_TYPE_FILE then 20
  else if ty = VA_FS_DESCRIPTOR_TYPE_DIRECTORY then 16
  else if ty = VA_FS_DESCRIPTOR_TYPE_SYMLINK then 8
  else 0

/-! ## Write-mode descriptor stream, from `src/libvafs/stream.c`

In write mode `vafs_stream_write` appends the caller's bytes to the
staging buffer and flushes exactly when it fills (stream.c:594-613), so
`BlockBufferIndex = total/BlockSize` and `BlockBufferOffset =
total%BlockSize` hold throughout, where `total` is the number of bytes
accepted so far.  The stream's uncompressed byte space is therefore the
plain concatenation `out` of everything written, and
`vafs_stream_position` reads off the invariant. -/

structure WStream where
  blockSize : Nat
  out : List Nat

def vafs_stream_write (s : WStream) (bytes : List Nat) : WStream :=
  { s with out := s.out ++ bytes }

def vafs_stream_position (s : WStream) : Nat × Nat :=
  (s.out.length / s.blockSize, s.out.length % s.blockSize)

/-- A writer entry after `vafs_directory_flush` assigned every directory
its child-listing block position (`directory.c:740-741`). -/
inductive AEntry where
  | file (name : List Nat) (permissions dataIndex dataOffset fileLength : Nat)
  | dir (name : List Nat) (permissions : Nat) (pos : Nat × Nat)
      (entries : List AEntry)
  | symlink (name : List Nat) (target : List Nat)

/-- Embeds the serialized form of one child descriptor, as emitted by
`__write_file_descriptor` (directory.c:606-633),
`__write_directory_descriptor` (directory.c:635-662) and
`__write_symlink_descriptor` (directory.c:664-704): the typed struct with
`Base.Length` increased by the inline byte count, followed by the inline
name (and target) bytes. -/
def descriptorBytes : AEntry → List Nat
  | AEntry.file name perms di dof flen =>
      encodeU16 VA_FS_DESCRIPTOR_TYPE_FILE ++ encodeU16 (20 + name.length) ++
        encodeU32 di ++ encodeU32 dof ++ encodeU32 flen ++ encodeU32 perms ++ name
  | AEntry.dir name perms pos _ =>
      encodeU16 VA_FS_DESCRIPTOR_TYPE_DIRECTORY ++ encodeU16 (16 + name.length) ++
        encodeU32 pos.1 ++ encodeU32 pos.2 ++ encodeU32 perms ++ name
  | AEntry.symlink name target =>
      encodeU16 VA_FS_DESCRIPTOR_TYPE_SYMLINK ++
        encodeU16 (8 + name.length + target.length) ++
        encodeU16 name.length ++ encodeU16 target.length ++ name ++ target

/-- The serialized child listing: `VaFsDirectoryHeader` (u32 count) followed
by the child descriptors in list order (`vafs_directory_flush`,
directory.c:744-771). -/
def listingBytes (entries : List AEntry) : List Nat :=
  encodeU32 entries.length ++ (entries.map descriptorBytes).flatten

/-- The second loop of `vafs_directory_flush` (directory.c:750-771): write
each child's descriptor in list order. -/
def __write_descriptors (s : WStream) : List AEntry → WStream
  | [] => s
  | a :: rest => __write_descriptors (vafs_stream_write s (descriptorBytes a)) rest

mutual

/-- Embeds `vafs_directory_flush` (directory.c:706-773) for a writer
directory with the given children: flush every subdirectory first (the
first loop), then capture the stream position as this directory's
child-listing location, then write the listing count and each child's
descriptor.  Returns the grown stream and the annotated directory. -/
def vafs_directory_flush (s : WStream) (name : List Nat) (permissions : Nat)
    (entries : List WEntry) : WStream × AEntry :=
  match __flush_children s entries with
  | (s1, aentries) =>
      (__write_descriptors (vafs_stream_write s1 (encodeU32 entries.length)) aentries,
        AEntry.dir name permissions (vafs_stream_position s1) aentries)

/-- The first loop of `vafs_directory_flush` (directory.c:720-728): flush
every subdirectory, in the order of the entry list, leaving files and
symlinks untouched. -/
def __flush_children (s : WStream) : List WEntry → WStream × List AEntry
  | [] => (s, [])
  | WEntry.dir n p es :: rest =>
      match vafs_directory_flush s n p es with
      | (s1, ad) =>
          match __flush_children s1 rest with
          | (s2, arest) => (s2, ad :: arest)
  | WEntry.file n p di dof l :: rest =>
      match __flush_children s rest with
      | (s2, arest) => (s2, AEntry.file n p di dof l :: arest)
  | WEntry.symlink n t :: rest =>
      match __flush_children s rest with
      | (s2, arest) => (s2, AEntry.symlink n t :: arest)

end

/-- `bs` occurs verbatim at byte offset `off` of `out`. -/
def bytesAt (out : List Nat) (off : Nat) (bs : List Nat) : Prop :=
  (out.drop off).take bs.length = bs

mutual

/-- Every directory descriptor reachable from the annotated entry records
a block position at which its serialized child listing actually lies in
the descriptor-stream bytes `out`. -/
def aGood (B : Nat) (out : List Nat) : AEntry → Prop
  | AEntry.file _ _ _ _ _ => True
  | AEntry.symlink _ _ => True
  | AEntry.dir _ _ pos aes =>
      bytesAt out (pos.1 * B + pos.2) (listingBytes aes) ∧ aGoodList B out aes

def aGoodList (B : Nat) (out : List Nat) : List AEntry → Prop
  | [] => True
  | a :: rest => aGood B out a ∧ aGoodList B out rest

end

/-! ## Read-mode stream, from `src/libvafs/stream.c`

In read mode the stream's uncompressed space is the sequence of decoded
blocks; `__load_blockbuffer` fills the staging buffer with the decoded
content of one block (its device, codec and CRC mechanics are modelled
separately for C2).  Here a block load succeeds exactly when the block
index has a block-index entry, and yields the block's decoded bytes.
Loading writes only the block's decoded length into the staging buffer;
reads are specified over those bytes (the C buffer's stale tail beyond a
short final block is never covered by the theorems below). -/

structure RStream where
  blockSize : Nat
  blocks : List (List Nat)

/-- Splits a writer stream's byte space into its flushed blocks: every
block is full except possibly the last (a block flushes exactly when the
staging buffer fills; `vafs_stream_finish` flushes the final partial
block). -/
def chunkBlocks (B : Nat) (bytes : List Nat) : List (List Nat) :=
  if B = 0 then []
  else if bytes = [] then []
  else bytes.take B :: chunkBlocks B (bytes.drop B)
termination_by bytes.length
decreasing_by
  rename_i hB hne
  have : bytes.length ≠ 0 := fun h => hne (List.length_eq_zero.1 h)
  have hld : (bytes.drop B).length = bytes.length - B := List.length_drop _ _
  omega

/-- The `while (1)` normalization loop of `vafs_stream_seek`
(stream.c:457-476).  The C walks `i` and `targetBlock` upward together
(both start at the requested index, and both are incremented in the same
iteration), so a single counter suffices; each visited index must have a
block-index entry.  A zero block size would spin forever in C and is
mapped to failure. -/
def __stream_seek_loop (count B i off : Nat) : Option (Nat × Nat) :=
  if i < count then
    if off < B then some (i, off)
    else if B = 0 then none
    else __stream_seek_loop count B (i + 1) (off - B)
  else none
termination_by off
decreasing_by omega

/-- Embeds `vafs_stream_seek` (stream.c:438-487): normalize the target
position, then load the target block (which here succeeds exactly when the
loop found its block-index entry).  Returns the staged position. -/
def vafs_stream_seek (s : RStream) (blockIndex blockOffset : Nat) :
    Option (Nat × Nat) :=
  __stream_seek_loop s.blocks.length s.blockSize blockIndex blockOffset

/-- The copy loop of `vafs_stream_read` (stream.c:634-658): copy up to the
end of the staged block, then load the next block.  The load of the next
block happens inside the iteration that exhausted the staged block, before
the loop re-tests its condition — so a read ending exactly at a block
boundary demands that a further block exist even when nothing remains to
be read. -/
def __stream_read_loop (blocks : List (List Nat)) (B : Nat) (bi off n : Nat)
    (acc : List Nat) : Option (Nat × Nat × List Nat) :=
  if n = 0 then some (bi, off, acc)
  else if B ≤ off then none
  else
    let c := min n (B - off)
    let acc2 := acc ++ ((blocks.getD bi []).drop off).take c
    if off + c = B then
      if bi + 1 < blocks.length then
        __stream_read_loop blocks B (bi + 1) 0 (n - c) acc2
      else none
    else __stream_read_loop blocks B bi (off + c) (n - c) acc2
termination_by n
decreasing_by
  all_goals omega

/-- Embeds `vafs_stream_read` (stream.c:618-661); a zero-byte read is
rejected with `EINVAL`.  On success the final staged position and the
copied bytes are returned. -/
def vafs_stream_read (s : RStream) (bi off n : Nat) :
    Option (Nat × Nat × List Nat) :=
  if n = 0 then none
  else __stream_read_loop s.blocks s.blockSize bi off n []

/-- Embeds `vafs_file_read` (file.c:216-254): seek the data stream to the
file's data position plus the handle position, then read `n` bytes.  On
success the bytes placed in the caller's buffer are returned; the C call
reports failure (-1) in the `none` cases even when bytes were already
copied. -/
def vafs_file_read (s : RStream) (dataIndex dataOffset position n : Nat) :
    Option (List Nat) :=
  match vafs_stream_seek s dataIndex (dataOffset + position) with
  | none => none
  | some (bi, off) =>
      match vafs_stream_read s bi off n with
      | none => none
      | some (_, _, bytes) => some bytes

/-! ## Read-mode directory loading, from `src/libvafs/directory.c` -/

/-- Position-threaded stream read used by the descriptor parser. -/
def stream_read_state (s : RStream) (pos : Nat × Nat) (n : Nat) :
    Option ((Nat × Nat) × List Nat) :=
  match vafs_stream_read s pos.1 pos.2 n with
  | some (bi, off, bytes) => some ((bi, off), bytes)
  | none => none

/-- A parsed child descriptor, before any lazy loading of directory
children (the reader keeps the child-listing position in the directory's
descriptor). -/
inductive PDesc where
  | file (name : List Nat) (permissions dataIndex dataOffset fileLength : Nat)
  | dir (name : List Nat) (permissions : Nat) (childPos : Nat × Nat)
  | symlink (name : List Nat) (target : List Nat)

/-- Embeds `__create_file_from_descriptor`,
`__create_directory_from_descriptor`, `__create_symlink_from_descriptor`
and the type dispatch of `__create_entry_from_descriptor`
(directory.c:225-311).  `typed` holds the struct bytes after the 4-byte
base; `ext` holds the inline bytes. -/
def __create_entry_from_descriptor (ty : Nat) (typed ext : List Nat) :
    Option PDesc :=
  if ty = VA_FS_DESCRIPTOR_TYPE_FILE then
    some (PDesc.file ext (decodeU32 ((typed.drop 12).take 4))
      (decodeU32 (typed.take 4)) (decodeU32 ((typed.drop 4).take 4))
      (decodeU32 ((typed.drop 8).take 4)))
  else if ty = VA_FS_DESCRIPTOR_TYPE_DIRECTORY then
    some (PDesc.dir ext (decodeU32 ((typed.drop 8).take 4))
      (decodeU32 (typed.take 4), decodeU32 ((typed.drop 4).take 4)))
  else if ty = VA_FS_DESCRIPTOR_TYPE_SYMLINK then
    some (PDesc.symlink (ext.take (decodeU16 (typed.take 2)))
      ((ext.drop (decodeU16 (typed.take 2))).take
        (decodeU16 ((typed.drop 2).take 2))))
  else none

/-- Embeds `__read_descriptor` (directory.c:136-209): read the 4-byte base,
validate the type and length, read the typed struct tail and then the
inline bytes implied by `Length`.  A descriptor whose `Length` is below
its struct size makes the C read past the record and underflow the inline
length; such malformed records are mapped to failure. -/
def __read_descriptor (s : RStream) (pos : Nat × Nat) :
    Option ((Nat × Nat) × PDesc) :=
  match stream_read_state s pos 4 with
  | none => none
  | some (pos1, baseBytes) =>
      let ty := decodeU16 (baseBytes.take 2)
      let len := decodeU16 (baseBytes.drop 2)
      let size := __get_descriptor_size ty
      if len < 4 ∨ size = 0 then none
      else if len < size then none
      else
        match stream_read_state s pos1 (size - 4) with
        | none => none
        | some (pos2, typed) =>
            if len = size then
              (__create_entry_from_descriptor ty typed []).map (fun d => (pos2, d))
            else
              match stream_read_state s pos2 (len - size) with
              | none => none
              | some (pos3, ext) =>
                  (__create_entry_from_descriptor ty typed ext).map
                    (fun d => (pos3, d))

inductive VaFsDirectoryState where
  | openState
  | loadedState
deriving DecidableEq, Repr

/-- The reader-side mutable directory: its load state and its entry list
(`struct VaFsDirectoryReader`, directory.c:34-38). -/
structure VaFsDirectoryReader where
  state : VaFsDirectoryState
  entries : List PDesc

/-- The entry loop of `__load_directory` (directory.c:360-386): parse each
descriptor and prepend it to the directory's entry list; on failure the
function returns with the entries read so far still linked. -/
def __load_directory_loop (s : RStream) (count : Nat) (pos : Nat × Nat)
    (reader : VaFsDirectoryReader) : VaFsDirectoryReader × Bool :=
  match count with
  | 0 => ({ reader with state := VaFsDirectoryState.loadedState }, true)
  | k + 1 =>
      match __read_descriptor s pos with
      | none => (reader, false)
      | some (pos2, d) =>
          __load_directory_loop s k pos2
            { reader with entries := d :: reader.entries }

/-- Embeds `__load_directory` (directory.c:313-394): a directory whose
descriptor position is the invalid block is immediately `Loaded` and
empty; otherwise seek to the child listing, read the count, and parse the
children.  The boolean is `true` when the C function returns 0. -/
def __load_directory (s : RStream) (reader : VaFsDirectoryReader)
    (descIndex descOffset : Nat) : VaFsDirectoryReader × Bool :=
  if descIndex = VA_FS_INVALID_BLOCK then
    ({ reader with state := VaFsDirectoryState.loadedState }, true)
  else
    match vafs_stream_seek s descIndex descOffset with
    | none => (reader, false)
    | some pos =>
        match stream_read_state s pos 4 with
        | none => (reader, false)
        | some (pos1, countBytes) =>
            __load_directory_loop s (decodeU32 countBytes) pos1 reader

mutual

/-- Fully materializes the reader tree below one child-listing position by
applying `__load_directory` to a fresh open directory and recursing into
each directory entry (the lazy loads that `__get_first_entry` performs on
demand, directory.c:475-493).  `fuel` bounds the recursion depth. -/
def loadTree (fuel : Nat) (s : RStream) (descIndex descOffset : Nat) :
    Option (List AEntry) :=
  match fuel with
  | 0 => none
  | fuel2 + 1 =>
      match __load_directory s ⟨VaFsDirectoryState.openState, []⟩
          descIndex descOffset with
      | (_, false) => none
      | (r, true) => loadEntries fuel2 s r.entries

def loadEntries (fuel : Nat) (s : RStream) : List PDesc → Option (List AEntry)
  | [] => some []
  | PDesc.dir n p cp :: rest =>
      match loadTree fuel s cp.1 cp.2 with
      | none => none
      | some children =>
          match loadEntries fuel s rest with
          | none => none
          | some arest => some (AEntry.dir n p cp children :: arest)
  | PDesc.file n p di dof l :: rest =>
      (loadEntries fuel s rest).map (fun arest => AEntry.file n p di dof l :: arest)
  | PDesc.symlink n t :: rest =>
      (loadEntries fuel s rest).map (fun arest => AEntry.symlink n t :: arest)

end

mutual

/-- The reader tree the writer tree should round-trip to: every directory's
children come back in the reverse of the writer's list order, because the
writer emits its head-first list in order and `__load_directory` prepends
each entry as it is read. -/
def mirrorEntry : AEntry → AEntry
  | AEntry.file n p di dof l => AEntry.file n p di dof l
  | AEntry.dir n p pos es => AEntry.dir n p pos (mirrorList es)
  | AEntry.symlink n t => AEntry.symlink n t

def mirrorList : List AEntry → List AEntry
  | [] => []
  | e :: rest => mirrorList rest ++ [mirrorEntry e]

end

/-- Block-position of a flat byte offset in a stream with block size `B`. -/
def posOf (B q : Nat) : Nat × Nat := (q / B, q % B)

/-! ### Round-trip of the descriptor stream (C1)

The reader parses back the byte space the writer flushed.  `pdescOf` is
the parsed descriptor a serialized annotated entry decodes to;
`entryWF`/`listWF` are the numeric bounds under which the writer's u16/u32
casts do not wrap; `needFuel` is the recursion depth `loadTree` needs. -/

def pdescOf : AEntry → PDesc
  | AEntry.file n p di dof l => PDesc.file n p di dof l
  | AEntry.dir n p pos _ => PDesc.dir n p pos
  | AEntry.symlink n t => PDesc.symlink n t

mutual

def entryWF : AEntry → Prop
  | AEntry.file n p di dof l =>
      20 + n.length < 65536 ∧ p < 2 ^ 32 ∧ di < 2 ^ 32 ∧ dof < 2 ^ 32 ∧ l < 2 ^ 32
  | AEntry.dir n p pos aes =>
      16 + n.length < 65536 ∧ p < 2 ^ 32 ∧ pos.1 < 2 ^ 32 ∧ pos.2 < 2 ^ 32 ∧
        pos.1 ≠ VA_FS_INVALID_BLOCK ∧ aes.length < 2 ^ 32 ∧ listWF aes
  | AEntry.symlink n t => 8 + n.length + t.length < 65536

def listWF : List AEntry → Prop
  | [] => True
  | a :: rest => entryWF a ∧ listWF rest

end

mutual

def needFuel : AEntry → Nat
  | AEntry.file _ _ _ _ _ => 0
  | AEntry.dir _ _ _ aes => 1 + needFuelList aes
  | AEntry.symlink _ _ => 0

def needFuelList : List AEntry → Nat
  | [] => 0
  | a :: rest => max (needFuel a) (needFuelList rest)

end

/-- A writer root holding a symlink, an empty subdirectory and a file. -/
def c1WitnessTree : List WEntry :=
  [WEntry.symlink [115] [116], WEntry.dir [100] 0o755 [],
   WEntry.file [99] 420 0 0 5]

/-! ## Block loading with CRC verification, from `src/libvafs/stream.c`

This layer models `__load_blockbuffer` (stream.c:350-436) with its device,
codec, cache and CRC mechanics explicit.  The CRC function itself
(`crc_calculate` from the missing `crc.c`) is an arbitrary parameter: the
claims depend only on the computed value being compared with the
block-index entry.  `device` holds the device bytes addressed relative to
the stream's device offset (block-header offsets are relative to it); a
short device read is a failure as with the file backend. -/

structure BlockHeaderR where
  lengthOnDisk : Nat
  offset : Nat
  crc : Nat
deriving Repr, DecidableEq

inductive LoadErr where
  | badIndex
  | shortRead
  | decodeFail
  | crcMismatch
deriving Repr, DecidableEq

structure VaFsStreamR where
  blockSize : Nat
  headers : List BlockHeaderR
  device : List Nat
  decode : Option (List Nat → Option (List Nat))
  cache : VaFsBlockCache

/-- The codec step of `__load_blockbuffer` (stream.c:400-420): decode when
a filter is installed, otherwise the staging buffer receives the raw
bytes. -/
def __decode_step (s : VaFsStreamR) (raw : List Nat) : Option (List Nat) :=
  match s.decode with
  | some d => d raw
  | none => some raw

/-- The cache-miss path of `__load_blockbuffer` (stream.c:372-436), with
`c2` the cache as already updated by the failed `vafs_cache_get`: locate
the block header, read the on-disk bytes, decode, verify the CRC of the
uncompressed bytes against the header, and offer the block to the cache. -/
def __load_miss (crc : List Nat → Nat) (s : VaFsStreamR) (c2 : VaFsBlockCache)
    (blockIndex : Nat) : VaFsStreamR × Except LoadErr (List Nat) :=
  match s.headers[blockIndex]? with
  | none => ({ s with cache := c2 }, Except.error LoadErr.badIndex)
  | some h =>
      if h.offset + h.lengthOnDisk ≤ s.device.length then
        match __decode_step s ((s.device.drop h.offset).take h.lengthOnDisk) with
        | none => ({ s with cache := c2 }, Except.error LoadErr.decodeFail)
        | some decoded =>
            if crc decoded ≠ h.crc then
              ({ s with cache := c2 }, Except.error LoadErr.crcMismatch)
            else
              ({ s with cache :=
                  (vafs_cache_set c2 blockIndex decoded decoded.length).1 },
                Except.ok decoded)
      else ({ s with cache := c2 }, Except.error LoadErr.shortRead)

/-- Embeds `__load_blockbuffer` (stream.c:350-436): serve from the cache if
possible (recording the heatmap hit either way), else take the
cache-miss path `__load_miss`.  Returns the stream (with its updated
cache) and the staged bytes or the error. -/
def __load_blockbuffer (crc : List Nat → Nat) (s : VaFsStreamR)
    (blockIndex : Nat) : VaFsStreamR × Except LoadErr (List Nat) :=
  match vafs_cache_get s.cache blockIndex with
  | (c2, some bufsz) => ({ s with cache := c2 }, Except.ok bufsz.1)
  | (c2, none) => __load_miss crc s c2 blockIndex

/-! ### Lemmas about the cache model -/

theorem heatmap_hits_hit (hm : List HeatmapEntry) (j i : Nat) :
    __heatmap_hits (__heatmap_hit hm j) i =
      if j = i then __heatmap_hits hm i + 1 else __heatmap_hits hm i := by
  induction hm with
  | nil =>
      by_cases h : j = i <;> simp [__heatmap_hit, __heatmap_hits, h]
  | cons e rest ih =>
      by_cases hej : e.index = j
      · by_cases hji : j = i
        · subst hji
          simp [__heatmap_hit, __heatmap_hits, hej]
        · have hei : e.index ≠ i := by
            intro h; exact hji (hej ▸ h)
          simp [__heatmap_hit, __heatmap_hits, hej, hei, hji]
      · by_cases hei : e.index = i
        · have hji : j ≠ i := by
            intro h; exact hej (by rw [h, hei])
          have hij : i ≠ j := fun h => hji h.symm
          simp [__heatmap_hit, __heatmap_hits, hej, hei, hji, hij]
        · simp [__heatmap_hit, __heatmap_hits, hej, hei, ih]

theorem cacheFind_isSome_iff (l : List BlockEntry) (i : Nat) :
    (cacheFind l i).isSome ↔ ∃ b ∈ l, b.index = i := by
  induction l with
  | nil => simp [cacheFind]
  | cons b rest ih =>
      by_cases h : b.index = i
      · simp [cacheFind, h]
      · simp [cacheFind, h, ih]

theorem indexes_cacheBumpUses (l : List BlockEntry) (i : Nat) :
    (cacheBumpUses l i).map BlockEntry.index = l.map BlockEntry.index := by
  induction l with
  | nil => rfl
  | cons b rest ih =>
      by_cases h : b.index = i <;> simp [cacheBumpUses, h, ih]

theorem cacheMem_iff_mem_map (c : VaFsBlockCache) (i : Nat) :
    cacheMem c i ↔ i ∈ c.cache.map BlockEntry.index := by
  simp [cacheMem]

theorem mem_of_mem_cacheRemove (l : List BlockEntry) (i : Nat) (b : BlockEntry)
    (h : b ∈ cacheRemove l i) : b ∈ l := by
  induction l with
  | nil => simp [cacheRemove] at h
  | cons b0 rest ih =>
      by_cases h0 : b0.index = i
      · simp only [cacheRemove, if_pos h0] at h
        exact List.mem_cons_of_mem _ h
      · simp only [cacheRemove, if_neg h0, List.mem_cons] at h
        rcases h with h | h
        · exact h ▸ List.mem_cons_self _ _
        · exact List.mem_cons_of_mem _ (ih h)

theorem mem_of_mem_eject (c : VaFsBlockCache) (b : BlockEntry)
    (h : b ∈ (__eject_lowuse c).cache) : b ∈ c.cache := by
  unfold __eject_lowuse at h
  split at h
  · exact h
  · split at h
    · exact h
    · exact mem_of_mem_cacheRemove _ _ _ h

theorem eject_preserves_rest (c : VaFsBlockCache) :
    (__eject_lowuse c).heatmap = c.heatmap ∧
      (__eject_lowuse c).max_blocks = c.max_blocks := by
  unfold __eject_lowuse
  split
  · exact ⟨rfl, rfl⟩
  · split <;> exact ⟨rfl, rfl⟩

theorem cacheMem_get (c : VaFsBlockCache) (j i : Nat) :
    cacheMem (vafs_cache_get c j).1 i ↔ cacheMem c i := by
  cases h : cacheFind c.cache j with
  | none => simp [vafs_cache_get, h, cacheMem]
  | some b =>
      rw [cacheMem_iff_mem_map, cacheMem_iff_mem_map]
      simp [vafs_cache_get, h, indexes_cacheBumpUses]

theorem heatmap_get (c : VaFsBlockCache) (j : Nat) :
    ((vafs_cache_get c j).1).heatmap = __heatmap_hit c.heatmap j := by
  cases h : cacheFind c.cache j <;> simp [vafs_cache_get, h]

theorem heatmap_set (c : VaFsBlockCache) (j : Nat) (buf : List Nat) (sz : Nat) :
    ((vafs_cache_set c j buf sz).1).heatmap = c.heatmap := by
  unfold vafs_cache_set
  split
  · rfl
  · split
    · rfl
    · simp [(eject_preserves_rest c).1]

theorem cacheGood_step (c : VaFsBlockCache) (i : Nat) (op : CacheOp)
    (h : cacheGood c i) : cacheGood (cacheStep c op) i := by
  cases op with
  | get j =>
      intro hm
      rw [cacheStep] at hm ⊢
      rw [cacheMem_get] at hm
      rw [heatmap_get, heatmap_hits_hit]
      have := h hm
      split <;> omega
  | setOp j buf sz =>
      intro hm
      rw [cacheStep] at hm ⊢
      rw [heatmap_set]
      unfold vafs_cache_set at hm
      split at hm
      · exact h hm
      · split at hm
        · exact h hm
        · rename_i hhits hdup
          rcases hm with ⟨b, hb, hbi⟩
          simp only [List.mem_append, List.mem_singleton] at hb
          rcases hb with hb | hb
          · exact h ⟨b, mem_of_mem_eject _ _ hb, hbi⟩
          · subst hb
            simp only at hbi
            subst hbi
            omega

theorem cacheGood_run (c : VaFsBlockCache) (i : Nat) (ops : List CacheOp)
    (h : cacheGood c i) : cacheGood (cacheRun c ops) i := by
  induction ops generalizing c with
  | nil => exact h
  | cons op rest ih => exact ih _ (cacheGood_step _ _ _ h)

theorem hits_cacheStep (c : VaFsBlockCache) (i : Nat) (op : CacheOp) :
    __heatmap_hits (cacheStep c op).heatmap i =
      __heatmap_hits c.heatmap i +
        (match op with
          | CacheOp.get j => if j = i then 1 else 0
          | CacheOp.setOp _ _ _ => 0) := by
  cases op with
  | get j =>
      rw [cacheStep, heatmap_get, heatmap_hits_hit]
      split <;> (rename_i h; simp [h])
  | setOp j buf sz => rw [cacheStep, heatmap_set]; rfl

theorem hits_cacheRun (c : VaFsBlockCache) (i : Nat) (ops : List CacheOp) :
    __heatmap_hits (cacheRun c ops).heatmap i =
      __heatmap_hits c.heatmap i + countGets i ops := by
  induction ops generalizing c with
  | nil => simp [cacheRun, countGets]
  | cons op rest ih =>
      have hstep := hits_cacheStep c i op
      have hrun : cacheRun c (op :: rest) = cacheRun (cacheStep c op) rest := rfl
      rw [hrun, ih, hstep]
      cases op with
      | get j =>
          simp only [countGets, List.countP_cons]
          split <;> rename_i h <;> simp [h, countGets] <;> omega
      | setOp j buf sz =>
          simp only [countGets, List.countP_cons]
          simp [countGets]

/-- C3.  Cache admission: a block index requested (via get) exactly once is
never present in the cache after any sequence of operations containing that
single get, and an index with at least two heatmap hits that is not yet
cached is admitted by a set. -/
theorem cache_admission_heatmap :
    (∀ (cap : Nat) (ops : List CacheOp) (i : Nat),
        countGets i ops = 1 →
        ¬ cacheMem (cacheRun (vafs_cache_create cap) ops) i) ∧
      (∀ (c : VaFsBlockCache) (i : Nat) (buf : List Nat) (sz : Nat),
        2 ≤ __heatmap_hits c.heatmap i → ¬ cacheMem c i →
        cacheMem (vafs_cache_set c i buf sz).1 i) := by
  constructor
  · intro cap ops i h1 hmem
    have hgood : cacheGood (cacheRun (vafs_cache_create cap) ops) i := by
      refine cacheGood_run _ _ _ ?_
      intro hm
      rcases hm with ⟨b, hb, _⟩
      simp [vafs_cache_create] at hb
    have hhits := hits_cacheRun (vafs_cache_create cap) i ops
    have h0 : __heatmap_hits (vafs_cache_create cap).heatmap i = 0 := rfl
    have := hgood hmem
    omega
  · intro c i buf sz hhits hmem
    have h1 : ¬ __heatmap_hits c.heatmap i ≤ 1 := by omega
    have h2 : cacheFind c.cache i = none := by
      cases h : cacheFind c.cache i with
      | none => rfl
      | some b =>
          exfalso
          apply hmem
          have : (cacheFind c.cache i).isSome := by rw [h]; rfl
          exact (cacheFind_isSome_iff _ _).1 this
    refine ⟨{ index := i, buffer := buf, size := sz, uses := 1 }, ?_, rfl⟩
    simp [vafs_cache_set, h1, h2]

/-- Witness for C3 at concrete inputs: one get of block 5 never caches it,
and a set of block 7 with two prior hits does cache it. -/
theorem cache_admission_heatmap_witness :
    (¬ cacheMem (cacheRun (vafs_cache_create 32) [CacheOp.get 5]) 5) ∧
      cacheMem (vafs_cache_set
        { max_blocks := 32, heatmap := [{ index := 7, hits := 2 }], cache := [] }
        7 [1, 2] 2).1 7 :=
  ⟨cache_admission_heatmap.1 32 [CacheOp.get 5] 5 (by decide),
    cache_admission_heatmap.2 _ 7 [1, 2] 2 (by decide) (by decide)⟩

/-! ### Lemmas for the eviction scan -/

theorem foldl_enum_no_update (l : List BlockEntry) (ctx : Nat × Nat)
    (h : ∀ b ∈ l, ¬ b.uses < ctx.2) :
    l.foldl __cache_enum_step ctx = ctx := by
  induction l with
  | nil => rfl
  | cons b rest ih =>
      have hb := h b (List.mem_cons_self _ _)
      have hstep : __cache_enum_step ctx b = ctx := by
        simp [__cache_enum_step, hb]
      rw [List.foldl_cons, hstep]
      exact ih (fun b' hb' => h b' (List.mem_cons_of_mem _ hb'))

theorem foldl_enum_strict_min (l : List BlockEntry) (e : BlockEntry) :
    ∀ ctx : Nat × Nat, e ∈ l → (∀ b ∈ l, b ≠ e → e.uses < b.uses) →
      e.uses < ctx.2 → l.foldl __cache_enum_step ctx = (e.index, e.uses) := by
  induction l with
  | nil => intro ctx he; exact absurd he (List.not_mem_nil e)
  | cons b rest ih =>
      intro ctx he hmin hlt
      by_cases hbe : b = e
      · subst hbe
        have hstep : __cache_enum_step ctx b = (b.index, b.uses) := by
          simp [__cache_enum_step, hlt]
        rw [List.foldl_cons, hstep]
        apply foldl_enum_no_update
        intro b' hb'
        by_cases hb'e : b' = b
        · subst hb'e; omega
        · have := hmin b' (List.mem_cons_of_mem _ hb') hb'e
          omega
      · have herest : e ∈ rest := by
          rcases List.mem_cons.1 he with h | h
          · exact absurd h.symm hbe
          · exact h
        have hbu : e.uses < b.uses := hmin b (List.mem_cons_self _ _) hbe
        rw [List.foldl_cons]
        apply ih _ herest
          (fun b' hb' hne => hmin b' (List.mem_cons_of_mem _ hb') hne)
        unfold __cache_enum_step
        split <;> omega

theorem cacheRemove_length (l : List BlockEntry) (i : Nat)
    (h : ∃ b ∈ l, b.index = i) :
    (cacheRemove l i).length + 1 = l.length := by
  induction l with
  | nil => simp at h
  | cons b rest ih =>
      by_cases hb : b.index = i
      · simp [cacheRemove, hb]
      · have h' : ∃ b' ∈ rest, b'.index = i := by
          rcases h with ⟨b', hb', hi⟩
          rcases List.mem_cons.1 hb' with rfl | hmem
          · exact absurd hi hb
          · exact ⟨b', hmem, hi⟩
        simp only [cacheRemove, if_neg hb, List.length_cons]
        rw [← ih h']

theorem cacheRemove_no_index (l : List BlockEntry) (i : Nat)
    (hnd : (l.map BlockEntry.index).Nodup) :
    ∀ b ∈ cacheRemove l i, b.index ≠ i := by
  induction l with
  | nil => intro b hb; simp [cacheRemove] at hb
  | cons b0 rest ih =>
      intro b hb
      simp only [List.map_cons, List.nodup_cons] at hnd
      by_cases h0 : b0.index = i
      · simp only [cacheRemove, if_pos h0] at hb
        intro hbi
        exact hnd.1 (h0 ▸ hbi ▸ List.mem_map_of_mem BlockEntry.index hb)
      · simp only [cacheRemove, if_neg h0, List.mem_cons] at hb
        rcases hb with rfl | hb
        · exact h0
        · exact ih hnd.2 b hb

/-- C4.  Cache eviction: when the cache is exactly at capacity and a set
admits a new block, the (unique) entry with the strictly smallest uses
counter is evicted, the size afterwards equals the capacity, and the new
entry stores the caller's bytes. -/
theorem cache_eviction_lowuse (c : VaFsBlockCache) (i : Nat) (buf : List Nat)
    (sz : Nat) (e : BlockEntry)
    (hcap : c.cache.length = c.max_blocks)
    (hpos : 0 < c.max_blocks)
    (hhits : 2 ≤ __heatmap_hits c.heatmap i)
    (hmem : ¬ cacheMem c i)
    (hnd : (c.cache.map BlockEntry.index).Nodup)
    (he : e ∈ c.cache)
    (hmin : ∀ b ∈ c.cache, b ≠ e → e.uses < b.uses)
    (heuses : e.uses < INT_MAX)
    (heidx : e.index ≠ UINT_MAX) :
    ((vafs_cache_set c i buf sz).1).cache.length = c.max_blocks ∧
      ¬ cacheMem (vafs_cache_set c i buf sz).1 e.index ∧
      ∃ b ∈ ((vafs_cache_set c i buf sz).1).cache,
        b.index = i ∧ b.buffer = buf ∧ b.size = sz ∧ b.uses = 1 := by
  have h1 : ¬ __heatmap_hits c.heatmap i ≤ 1 := by omega
  have h2 : cacheFind c.cache i = none := by
    cases h : cacheFind c.cache i with
    | none => rfl
    | some b =>
        exfalso
        apply hmem
        have : (cacheFind c.cache i).isSome := by rw [h]; rfl
        exact (cacheFind_isSome_iff _ _).1 this
  have hfold : __cache_enum_fold c.cache = (e.index, e.uses) :=
    foldl_enum_strict_min c.cache e _ he hmin heuses
  have hnotlt : ¬ c.cache.length < c.max_blocks := by omega
  have heject : (__eject_lowuse c).cache = cacheRemove c.cache e.index := by
    unfold __eject_lowuse
    rw [if_neg hnotlt, hfold]
    simp [heidx]
  have hset : ((vafs_cache_set c i buf sz).1).cache =
      cacheRemove c.cache e.index ++
        [{ index := i, buffer := buf, size := sz, uses := 1 }] := by
    simp [vafs_cache_set, h1, h2, heject]
  have hei : e.index ≠ i := by
    intro h
    exact hmem ⟨e, he, h⟩
  refine ⟨?_, ?_, ?_⟩
  · rw [hset]
    have := cacheRemove_length c.cache e.index ⟨e, he, rfl⟩
    simp only [List.length_append, List.length_cons, List.length_nil]
    omega
  · rintro ⟨b, hb, hbi⟩
    rw [hset] at hb
    rcases List.mem_append.1 hb with hb | hb
    · exact cacheRemove_no_index c.cache e.index hnd b hb hbi
    · rcases List.mem_singleton.1 hb with rfl
      exact hei (hbi ▸ rfl)
  · refine ⟨{ index := i, buffer := buf, size := sz, uses := 1 }, ?_, rfl, rfl, rfl, rfl⟩
    rw [hset]
    exact List.mem_append_right _ (List.mem_singleton.2 rfl)

/-- Witness for C4: a two-entry cache at capacity 2; block 1 (uses 1) is
evicted in favour of block 9, while block 2 (uses 5) survives. -/
theorem cache_eviction_lowuse_witness :
    ((vafs_cache_set
        { max_blocks := 2
          heatmap := [{ index := 9, hits := 3 }]
          cache := [{ index := 1, buffer := [10], size := 1, uses := 1 },
                    { index := 2, buffer := [20], size := 1, uses := 5 }] }
        9 [30] 1).1).cache.length = 2 ∧
      ¬ cacheMem (vafs_cache_set
        { max_blocks := 2
          heatmap := [{ index := 9, hits := 3 }]
          cache := [{ index := 1, buffer := [10], size := 1, uses := 1 },
                    { index := 2, buffer := [20], size := 1, uses := 5 }] }
        9 [30] 1).1 1 ∧
      ∃ b ∈ ((vafs_cache_set
        { max_blocks := 2
          heatmap := [{ index := 9, hits := 3 }]
          cache := [{ index := 1, buffer := [10], size := 1, uses := 1 },
                    { index := 2, buffer := [20], size := 1, uses := 5 }] }
        9 [30] 1).1).cache, b.index = 9 ∧ b.buffer = [30] ∧ b.size = 1 ∧ b.uses = 1 :=
  cache_eviction_lowuse _ 9 [30] 1
    { index := 1, buffer := [10], size := 1, uses := 1 }
    (by decide) (by decide) (by decide) (by decide) (by decide) (by decide)
    (by decide) (by decide) (by decide)

/-! ### Memory device theorems (C7) -/

theorem grow_buffer_fields (dev : MemoryDevice) (n : Nat) :
    (__grow_buffer dev n).size = dev.size ∧
      (__grow_buffer dev n).position = dev.position ∧
      (__grow_buffer dev n).capacity = dev.capacity + n ∧
      (__grow_buffer dev n).buffer.length = dev.buffer.length + n := by
  refine ⟨rfl, rfl, rfl, ?_⟩
  simp [__grow_buffer]

/-- C7 counterexample: on a memory device with valid size 4, a `SEEK_SET`
to offset 10 does not leave the cursor past the valid size; the cursor is
clamped to 4, so seeking past the valid size is not possible as claimed. -/
theorem memory_seek_past_size_counterexample :
    ((__memory_seek
        { buffer := List.replicate 8 0, capacity := 8, size := 4, position := 0 }
        10 Whence.set).1).position = 4 ∧
      ((__memory_seek
        { buffer := List.replicate 8 0, capacity := 8, size := 4, position := 0 }
        10 Whence.set).2) = 4 ∧ (4 : Int) ≠ 10 := by
  refine ⟨?_, ?_, by decide⟩ <;> decide

/-- C7 (amended).  For a well-formed memory device: `SEEK_END` is relative
to the valid size; every seek leaves the valid size unchanged and clamps
the cursor into `[0, size]` (so a seek past the valid size lands exactly
at the valid size); a write advances the valid size to the end of the
written range when the cursor reaches past it; a read extending past the
valid size returns only the bytes up to the valid size. -/
theorem memory_device_valid_size_semantics (dev : MemoryDevice)
    (hp0 : 0 ≤ dev.position) (hps : dev.position ≤ dev.size)
    (hsc : dev.size ≤ dev.capacity)
    (hbuf : (dev.buffer.length : Int) = dev.capacity) :
    (∀ o : Int,
        (__memory_seek dev o Whence.seekEnd).2 = min (max (dev.size + o) 0) dev.size) ∧
      (∀ (o : Int) (w : Whence),
        ((__memory_seek dev o w).1).size = dev.size ∧
          (__memory_seek dev o w).2 ≤ dev.size) ∧
      (∀ bytes : List Nat,
        ((__memory_write dev bytes).1).size =
          max dev.size (dev.position + bytes.length) ∧
          ((__memory_write dev bytes).1).position = dev.position + bytes.length) ∧
      (∀ n : Nat,
        ((__memory_read dev n).2).length = min n (dev.size - dev.position).toNat ∧
          ((__memory_read dev n).2) =
            (dev.buffer.drop dev.position.toNat).take
              (min n (dev.size - dev.position).toNat)) := by
  refine ⟨?_, ?_, ?_, ?_⟩
  · intro o
    unfold __memory_seek
    rw [if_neg]
    intro h
    exact absurd h.2 (by decide)
  · intro o w
    unfold __memory_seek
    split
    · exact ⟨rfl, hps⟩
    · refine ⟨rfl, ?_⟩
      exact min_le_right _ _
  · intro bytes
    have hgr : (__memory_write_grown dev bytes).size = dev.size ∧
        (__memory_write_grown dev bytes).position = dev.position := by
      unfold __memory_write_grown
      split
      · exact ⟨rfl, rfl⟩
      · exact ⟨rfl, rfl⟩
    unfold __memory_write
    constructor
    · simp only [hgr.1, hgr.2]
      split <;> rename_i hcmp <;> omega
    · simp only [hgr.2]
  · intro n
    unfold __memory_read
    refine ⟨?_, rfl⟩
    simp only [List.length_take, List.length_drop]
    omega

/-- Witness for C7 (amended) on the concrete device with bytes 1,2,3,4,
valid size 4, capacity 8 and cursor 2. -/
theorem memory_device_valid_size_semantics_witness :
    (__memory_seek
      { buffer := [1, 2, 3, 4, 0, 0, 0, 0], capacity := 8, size := 4, position := 2 }
      3 Whence.seekEnd).2 = 4 ∧
    ((__memory_write
      { buffer := [1, 2, 3, 4, 0, 0, 0, 0], capacity := 8, size := 4, position := 2 }
      [7, 8, 9]).1).size = 5 ∧
    ((__memory_read
      { buffer := [1, 2, 3, 4, 0, 0, 0, 0], capacity := 8, size := 4, position := 2 }
      5).2) = [3, 4] := by
  have h := memory_device_valid_size_semantics
    { buffer := [1, 2, 3, 4, 0, 0, 0, 0], capacity := 8, size := 4, position := 2 }
    (by decide) (by decide) (by decide) (by decide)
  refine ⟨(h.1 3).trans (by decide), ?_, ?_⟩
  · exact ((h.2.2.1 [7, 8, 9]).1).trans (by decide)
  · exact ((h.2.2.2 5).2).trans (by decide)

theorem nds_dropLast (l : List Char) (h : noDoubleSlash l = true) :
    noDoubleSlash l.dropLast = true := by
  induction l with
  | nil => rfl
  | cons a rest ih =>
      cases rest with
      | nil => rfl
      | cons b rest2 =>
          simp only [noDoubleSlash, Bool.and_eq_true] at h
          cases rest2 with
          | nil => rfl
          | cons c rest3 =>
              have ih2 := ih h.2
              rw [List.dropLast_cons₂] at ih2 ⊢
              simp only [noDoubleSlash, Bool.and_eq_true]
              exact ⟨h.1, ih2⟩

theorem nds_append (l : List Char) (c : Char) (h : noDoubleSlash l = true)
    (hc : c = '/' → l.getLast? ≠ some '/') :
    noDoubleSlash (l ++ [c]) = true := by
  induction l with
  | nil => rfl
  | cons a rest ih =>
      cases rest with
      | nil =>
          by_cases hcc : c = '/'
          · have ha : a ≠ '/' := fun ha => hc hcc (by simp [ha])
            simp [noDoubleSlash, ha]
          · simp [noDoubleSlash, hcc]
      | cons b rest2 =>
          simp only [noDoubleSlash, Bool.and_eq_true] at h
          have hlast : (b :: rest2 : List Char).getLast? = (a :: b :: rest2 : List Char).getLast? := by
            rw [List.getLast?_cons_cons]
          have ih2 := ih h.2 (fun hcc => (hlast ▸ hc hcc))
          simp only [List.cons_append, noDoubleSlash, Bool.and_eq_true] at ih2 ⊢
          exact ⟨h.1, ih2⟩

theorem backtrack_loop_nds_len (n : Nat) (b : List Char) (hn : b.length ≤ n)
    (h : noDoubleSlash b = true) :
    noDoubleSlash (__backtrack_loop b) = true ∧
      (__backtrack_loop b).length ≤ b.length := by
  induction n generalizing b with
  | zero =>
      have : b = [] := List.length_eq_zero.1 (Nat.le_zero.1 hn)
      subst this
      rw [__backtrack_loop]
      simp [noDoubleSlash]
  | succ n ih =>
      rw [__backtrack_loop]
      by_cases hb : b = []
      · simp [hb, noDoubleSlash]
      · rw [if_neg hb]
        by_cases hl : b.getLast? = some '/'
        · rw [if_pos hl]
          exact ⟨h, le_refl _⟩
        · rw [if_neg hl]
          have hlen : b.dropLast.length ≤ n := by
            have : b.length ≠ 0 := fun h0 => hb (List.length_eq_zero.1 h0)
            simp only [List.length_dropLast]
            omega
          have := ih b.dropLast hlen (nds_dropLast b h)
          refine ⟨this.1, le_trans this.2 ?_⟩
          simp [List.length_dropLast]

theorem backtrack_nds_len (b : List Char) (h : noDoubleSlash b = true) :
    noDoubleSlash (__backtrack b) = true ∧ (__backtrack b).length ≤ b.length := by
  unfold __backtrack
  by_cases hb : b = []
  · simp [hb, noDoubleSlash]
  · rw [if_neg hb]
    have := backtrack_loop_nds_len b.dropLast.length b.dropLast (le_refl _)
      (nds_dropLast b h)
    refine ⟨this.1, le_trans this.2 ?_⟩
    simp [List.length_dropLast]

theorem resolve_base_nds_len (base : List Char) :
    ∀ (buf : List Char) (B : Nat), buf.length ≤ B → noDoubleSlash buf = true →
      (__resolve_base base buf B).length ≤ B ∧
        noDoubleSlash (__resolve_base base buf B) = true := by
  induction base with
  | nil => intro buf B hl hn; exact ⟨hl, hn⟩
  | cons c rest ih =>
      intro buf B hl hn
      rw [__resolve_base]
      by_cases hfull : buf.length < B
      · rw [if_pos hfull]
        by_cases hc : c = '/'
        · rw [if_pos hc]
          by_cases hg : 0 < buf.length ∧ buf.getLast? ≠ some '/'
          · rw [if_pos hg]
            exact ih _ _ (by simp; omega) (nds_append _ _ hn (fun _ => hg.2))
          · rw [if_neg hg]
            exact ih _ _ hl hn
        · rw [if_neg hc]
          exact ih _ _ (by simp; omega) (nds_append _ _ hn (fun h => absurd h hc))
      · rw [if_neg hfull]
        exact ⟨hl, hn⟩

theorem resolve_target_nds_len_aux (n : Nat) :
    ∀ (t buf : List Char) (B : Nat), t.length ≤ n → buf.length ≤ B →
      noDoubleSlash buf = true →
      (__resolve_target t buf B).length ≤ B ∧
        noDoubleSlash (__resolve_target t buf B) = true := by
  induction n with
  | zero =>
      intro t buf B ht hl hn
      have : t = [] := List.length_eq_zero.1 (Nat.le_zero.1 ht)
      subst this
      rw [__resolve_target]
      exact ⟨hl, hn⟩
  | succ n ih =>
      intro t buf B ht hl hn
      cases t with
      | nil => rw [__resolve_target]; exact ⟨hl, hn⟩
      | cons c rest =>
          have hrest : rest.length ≤ n := by
            simp only [List.length_cons] at ht; omega
          have htail : rest.tail.length ≤ n := by
            have := List.length_tail rest; omega
          have htail2 : rest.tail.tail.length ≤ n := by
            have := List.length_tail rest
            have := List.length_tail rest.tail
            omega
          rw [__resolve_target]
          by_cases hfull : buf.length < B
          · rw [if_pos hfull]
            by_cases hc : c = '/'
            · rw [if_pos hc]
              by_cases hg : 0 < buf.length ∧ buf.getLast? ≠ some '/'
              · rw [if_pos hg]
                exact ih _ _ _ hrest (by simp; omega)
                  (nds_append _ _ hn (fun _ => hg.2))
              · rw [if_neg hg]
                exact ih _ _ _ hrest hl hn
            · rw [if_neg hc]
              by_cases hd : c = '.'
              · rw [if_pos hd]
                by_cases h1 : rest.head? = some '/'
                · rw [if_pos h1]
                  exact ih _ _ _ htail hl hn
                · rw [if_neg h1]
                  by_cases h2 : rest.head? = some '.' ∧ rest.tail.head? = some '/'
                  · rw [if_pos h2]
                    have hbt := backtrack_nds_len buf hn
                    exact ih _ _ _ htail2 (le_trans hbt.2 hl) hbt.1
                  · rw [if_neg h2]
                    exact ih _ _ _ hrest hl hn
              · rw [if_neg hd]
                exact ih _ _ _ hrest (by simp; omega)
                  (nds_append _ _ hn (fun h => absurd h hc))
          · rw [if_neg hfull]
            exact ⟨hl, hn⟩

theorem backtrack_loop_to_slash (pre : List Char) :
    ∀ comp : List Char, (∀ ch ∈ comp, ch ≠ '/') →
      __backtrack_loop (pre ++ '/' :: comp) = pre ++ ['/'] := by
  intro comp
  induction comp using List.reverseRecOn with
  | nil =>
      intro _
      rw [__backtrack_loop]
      rw [if_neg (by simp)]
      rw [if_pos]
      simp
  | append_singleton comp c ih =>
      intro hcomp
      have hc : c ≠ '/' := hcomp c (by simp)
      rw [__backtrack_loop]
      rw [if_neg (by simp)]
      have hassoc : pre ++ '/' :: (comp ++ [c]) = (pre ++ '/' :: comp) ++ [c] := by
        simp
      rw [if_neg]
      · rw [hassoc, List.dropLast_concat]
        exact ih (fun ch hch => hcomp ch (List.mem_append_left _ hch))
      · rw [hassoc, List.getLast?_concat]
        simp [hc]

theorem backtrack_removes_component (pre comp : List Char)
    (hne : comp ≠ []) (hcomp : ∀ ch ∈ comp, ch ≠ '/') :
    __backtrack (pre ++ '/' :: comp) = pre ++ ['/'] := by
  unfold __backtrack
  rw [if_neg (by simp)]
  rcases List.eq_nil_or_concat comp with rfl | ⟨comp2, c, rfl⟩
  · exact absurd rfl hne
  · simp only [List.concat_eq_append] at hne hcomp ⊢
    have hassoc : pre ++ '/' :: (comp2 ++ [c]) = (pre ++ '/' :: comp2) ++ [c] := by
      simp
    rw [hassoc, List.dropLast_concat]
    exact backtrack_loop_to_slash pre comp2
      (fun ch hch => hcomp ch (List.mem_append_left _ hch))

/-- C9 counterexample: resolving the target `a.b` against the base prefix
`/c/` yields `c/ab`, not a path with the name `a.b` intact — the dot inside
an ordinary component is dropped from the output, so the resolution is not
the canonicalization the claim describes. -/
theorem resolve_symlink_dot_dropped_counterexample :
    __vafs_resolve_symlink ['/', 'c', '/'] ['a', '.', 'b'] VAFS_PATH_MAX =
        ['c', '/', 'a', 'b'] ∧
      (['c', '/', 'a', 'b'] : List Char) ≠ ['c', '/', 'a', '.', 'b'] := by
  constructor
  · simp [__vafs_resolve_symlink, __resolve_base, __resolve_target, __backtrack,
      __backtrack_loop, VAFS_PATH_MAX]
  · decide

/-- C9 (amended).  The resolver bounds its output by the buffer cap and
never emits two adjacent separators; a `./` pair in the target is skipped;
a `../` triple applied at root leaves the root (clamps); and a `../`
triple applied to a buffer ending in a non-empty slash-free component
removes exactly that component.  However a `.` character that is not part
of a `./` or `../` sequence — including dots inside ordinary names, and a
trailing `.` or `..` — is dropped from the output rather than copied. -/
theorem resolve_symlink_canonicalization (B : Nat) (hB : 0 < B) :
    (∀ base target : List Char,
        (__vafs_resolve_symlink base target B).length ≤ B ∧
          noDoubleSlash (__vafs_resolve_symlink base target B) = true) ∧
      (∀ rest buf : List Char, buf.length < B →
        __resolve_target ('.' :: '/' :: rest) buf B = __resolve_target rest buf B) ∧
      (∀ rest : List Char,
        __resolve_target ('.' :: '.' :: '/' :: rest) [] B =
          __resolve_target rest [] B) ∧
      (∀ rest pre comp : List Char, comp ≠ [] → (∀ ch ∈ comp, ch ≠ '/') →
        (pre ++ '/' :: comp).length < B →
        __resolve_target ('.' :: '.' :: '/' :: rest) (pre ++ '/' :: comp) B =
          __resolve_target rest (pre ++ ['/']) B) := by
  refine ⟨?_, ?_, ?_, ?_⟩
  · intro base target
    have hbase := resolve_base_nds_len base [] B (Nat.zero_le _) rfl
    exact resolve_target_nds_len_aux target.length target _ B (le_refl _)
      hbase.1 hbase.2
  · intro rest buf h
    rw [__resolve_target]
    simp [h]
  · intro rest
    rw [__resolve_target]
    simp [hB, __backtrack]
  · intro rest pre comp hne hcomp hlen
    rw [__resolve_target]
    simp only [List.head?_cons, List.tail_cons]
    simp only [hlen, if_true, reduceIte]
    rw [backtrack_removes_component pre comp hne hcomp]
    simp

/-- Witness for C9 (amended) at concrete inputs: the bound and separator
properties on the counterexample input, a `./` skip, a clamped `../` at
root, and a component removal. -/
theorem resolve_symlink_canonicalization_witness :
    ((__vafs_resolve_symlink ['/', 'c', '/'] ['a', '.', 'b'] 4096).length ≤ 4096 ∧
        noDoubleSlash (__vafs_resolve_symlink ['/', 'c', '/'] ['a', '.', 'b'] 4096) = true) ∧
      __resolve_target ['.', '/', 'x'] ['a'] 4096 = __resolve_target ['x'] ['a'] 4096 ∧
      __resolve_target ['.', '.', '/', 'x'] [] 4096 = __resolve_target ['x'] [] 4096 ∧
      __resolve_target ['.', '.', '/', 'x'] (['a'] ++ '/' :: ['b']) 4096 =
        __resolve_target ['x'] (['a'] ++ ['/']) 4096 := by
  have h := resolve_symlink_canonicalization 4096 (by decide)
  refine ⟨h.1 ['/', 'c', '/'] ['a', '.', 'b'], ?_, h.2.2.1 ['x'], ?_⟩
  · exact h.2.1 ['x'] ['a'] (by decide)
  · exact h.2.2.2 ['x'] ['a'] ['b'] (by decide) (by decide) (by decide)

theorem bytesAt_append (out u bs : List Nat) (off : Nat)
    (h : bytesAt out off bs) : bytesAt (out ++ u) off bs := by
  rw [bytesAt] at h ⊢
  have h1 : (List.take bs.length (List.drop off out)).length = bs.length := by rw [h]
  rw [List.length_take, List.length_drop] at h1
  by_cases hnil : bs.length = 0
  · rw [hnil, List.take_zero] at h ⊢
    exact h
  · have hoff : off ≤ out.length := by omega
    rw [List.drop_append_of_le_length hoff,
      List.take_append_of_le_length (by rw [List.length_drop]; omega)]
    exact h

mutual

theorem aGood_append (B : Nat) (out u : List Nat) :
    ∀ (a : AEntry), aGood B out a → aGood B (out ++ u) a
  | AEntry.file _ _ _ _ _, _ => by rw [aGood]; exact True.intro
  | AEntry.symlink _ _, _ => by rw [aGood]; exact True.intro
  | AEntry.dir n p pos aes, h => by
      rw [aGood] at h ⊢
      exact ⟨bytesAt_append out u (listingBytes aes) (pos.1 * B + pos.2) h.1,
        aGoodList_append B out u aes h.2⟩

theorem aGoodList_append (B : Nat) (out u : List Nat) :
    ∀ (l : List AEntry), aGoodList B out l → aGoodList B (out ++ u) l
  | [], _ => by rw [aGoodList]; exact True.intro
  | a :: rest, h => by
      rw [aGoodList] at h ⊢
      exact ⟨aGood_append B out u a h.1, aGoodList_append B out u rest h.2⟩

end

theorem write_descriptors_out : ∀ (l : List AEntry) (s : WStream),
    __write_descriptors s l = { s with out := s.out ++ (l.map descriptorBytes).flatten }
  | [], s => by
      rw [__write_descriptors]
      simp
  | a :: rest, s => by
      rw [__write_descriptors, write_descriptors_out rest]
      simp [vafs_stream_write, List.append_assoc]

theorem vafs_directory_flush_eq (s : WStream) (n : List Nat) (p : Nat)
    (es : List WEntry) :
    vafs_directory_flush s n p es =
      (__write_descriptors
          (vafs_stream_write (__flush_children s es).1 (encodeU32 es.length))
          (__flush_children s es).2,
        AEntry.dir n p (vafs_stream_position (__flush_children s es).1)
          (__flush_children s es).2) := by
  rw [vafs_directory_flush]

theorem flush_children_nil_eq (s : WStream) : __flush_children s [] = (s, []) := by
  rw [__flush_children]

theorem flush_children_dir_eq (s : WStream) (n : List Nat) (p : Nat)
    (es' rest : List WEntry) :
    __flush_children s (WEntry.dir n p es' :: rest) =
      ((__flush_children (vafs_directory_flush s n p es').1 rest).1,
        (vafs_directory_flush s n p es').2 ::
          (__flush_children (vafs_directory_flush s n p es').1 rest).2) := by
  rw [__flush_children]

theorem flush_children_file_eq (s : WStream) (n : List Nat)
    (p di dof l : Nat) (rest : List WEntry) :
    __flush_children s (WEntry.file n p di dof l :: rest) =
      ((__flush_children s rest).1,
        AEntry.file n p di dof l :: (__flush_children s rest).2) := by
  rw [__flush_children]

theorem flush_children_symlink_eq (s : WStream) (n t : List Nat)
    (rest : List WEntry) :
    __flush_children s (WEntry.symlink n t :: rest) =
      ((__flush_children s rest).1,
        AEntry.symlink n t :: (__flush_children s rest).2) := by
  rw [__flush_children]

mutual

theorem flush_spec (s : WStream) (n : List Nat) (p : Nat) (es : List WEntry) :
    (vafs_directory_flush s n p es).1.blockSize = s.blockSize ∧
    (∃ t, (vafs_directory_flush s n p es).1.out = s.out ++ t) ∧
    (vafs_directory_flush s n p es).1.out =
      (__flush_children s es).1.out ++ listingBytes (__flush_children s es).2 ∧
    (vafs_directory_flush s n p es).2 =
      AEntry.dir n p (vafs_stream_position (__flush_children s es).1)
        (__flush_children s es).2 ∧
    aGood s.blockSize (vafs_directory_flush s n p es).1.out
      (vafs_directory_flush s n p es).2 := by
  obtain ⟨hbs, ⟨t, hout⟩, hlen, hgood⟩ := flush_children_spec s es
  rw [vafs_directory_flush_eq, write_descriptors_out, vafs_stream_write]
  refine ⟨hbs, ?_, ?_, rfl, ?_⟩
  · refine ⟨t ++ (encodeU32 es.length ++
      ((__flush_children s es).2.map descriptorBytes).flatten), ?_⟩
    show ((__flush_children s es).1.out ++ encodeU32 es.length) ++
        ((__flush_children s es).2.map descriptorBytes).flatten = _
    rw [hout, List.append_assoc, List.append_assoc]
  · show ((__flush_children s es).1.out ++ encodeU32 es.length) ++
        ((__flush_children s es).2.map descriptorBytes).flatten =
      (__flush_children s es).1.out ++ listingBytes (__flush_children s es).2
    rw [listingBytes, hlen, List.append_assoc]
  · show aGood s.blockSize
      (((__flush_children s es).1.out ++ encodeU32 es.length) ++
        ((__flush_children s es).2.map descriptorBytes).flatten)
      (AEntry.dir n p (vafs_stream_position (__flush_children s es).1)
        (__flush_children s es).2)
    rw [aGood]
    have hsplit : ((__flush_children s es).1.out ++ encodeU32 es.length) ++
        ((__flush_children s es).2.map descriptorBytes).flatten =
        (__flush_children s es).1.out ++ listingBytes (__flush_children s es).2 := by
      rw [listingBytes, hlen, List.append_assoc]
    constructor
    · rw [hsplit, bytesAt]
      have hposoff : (vafs_stream_position (__flush_children s es).1).1 * s.blockSize +
          (vafs_stream_position (__flush_children s es).1).2 =
          (__flush_children s es).1.out.length := by
        rw [vafs_stream_position, hbs]
        show (__flush_children s es).1.out.length / s.blockSize * s.blockSize +
          (__flush_children s es).1.out.length % s.blockSize = _
        rw [Nat.mul_comm]
        exact Nat.div_add_mod _ _
      rw [hposoff, List.drop_left, List.take_length]
    · rw [hsplit]
      exact aGoodList_append s.blockSize (__flush_children s es).1.out
        (listingBytes (__flush_children s es).2) (__flush_children s es).2 hgood

theorem flush_children_spec (s : WStream) (es : List WEntry) :
    (__flush_children s es).1.blockSize = s.blockSize ∧
    (∃ t, (__flush_children s es).1.out = s.out ++ t) ∧
    (__flush_children s es).2.length = es.length ∧
    aGoodList s.blockSize (__flush_children s es).1.out (__flush_children s es).2 := by
  match es with
  | [] =>
      rw [flush_children_nil_eq]
      exact ⟨rfl, ⟨[], by simp⟩, rfl, by rw [aGoodList]; exact True.intro⟩
  | WEntry.dir n p es' :: rest =>
      obtain ⟨hbs1, ⟨t1, hout1⟩, _, _, hgood1⟩ := flush_spec s n p es'
      obtain ⟨hbs2, ⟨t2, hout2⟩, hlen2, hgood2⟩ :=
        flush_children_spec (vafs_directory_flush s n p es').1 rest
      rw [flush_children_dir_eq]
      refine ⟨?_, ⟨t1 ++ t2, ?_⟩, ?_, ?_⟩
      · show (__flush_children (vafs_directory_flush s n p es').1 rest).1.blockSize =
          s.blockSize
        rw [hbs2, hbs1]
      · show (__flush_children (vafs_directory_flush s n p es').1 rest).1.out =
          s.out ++ (t1 ++ t2)
        rw [hout2, hout1, List.append_assoc]
      · show ((vafs_directory_flush s n p es').2 ::
            (__flush_children (vafs_directory_flush s n p es').1 rest).2).length =
          (WEntry.dir n p es' :: rest).length
        rw [List.length_cons, List.length_cons, hlen2]
      · show aGoodList s.blockSize
          (__flush_children (vafs_directory_flush s n p es').1 rest).1.out
          ((vafs_directory_flush s n p es').2 ::
            (__flush_children (vafs_directory_flush s n p es').1 rest).2)
        rw [aGoodList]
        rw [hbs1] at hgood2
        refine ⟨?_, hgood2⟩
        rw [hout2]
        exact aGood_append s.blockSize (vafs_directory_flush s n p es').1.out t2
          (vafs_directory_flush s n p es').2 hgood1
  | WEntry.file n p di dof l :: rest =>
      obtain ⟨hbs2, ⟨t2, hout2⟩, hlen2, hgood2⟩ := flush_children_spec s rest
      rw [flush_children_file_eq]
      refine ⟨hbs2, ⟨t2, hout2⟩, ?_, ?_⟩
      · show (AEntry.file n p di dof l :: (__flush_children s rest).2).length =
          (WEntry.file n p di dof l :: rest).length
        rw [List.length_cons, List.length_cons, hlen2]
      · show aGoodList s.blockSize (__flush_children s rest).1.out
          (AEntry.file n p di dof l :: (__flush_children s rest).2)
        rw [aGoodList, aGood]
        exact ⟨True.intro, hgood2⟩
  | WEntry.symlink n tg :: rest =>
      obtain ⟨hbs2, ⟨t2, hout2⟩, hlen2, hgood2⟩ := flush_children_spec s rest
      rw [flush_children_symlink_eq]
      refine ⟨hbs2, ⟨t2, hout2⟩, ?_, ?_⟩
      · show (AEntry.symlink n tg :: (__flush_children s rest).2).length =
          (WEntry.symlink n tg :: rest).length
        rw [List.length_cons, List.length_cons, hlen2]
      · show aGoodList s.blockSize (__flush_children s rest).1.out
          (AEntry.symlink n tg :: (__flush_children s rest).2)
        rw [aGoodList, aGood]
        exact ⟨True.intro, hgood2⟩

end

/-- C5.  Flushing a writer directory is post-order: all subdirectories are
flushed first (`__flush_children`, which only appends to the descriptor
stream), then the stream position reached after those flushes is captured
as this directory's child-listing location, then the listing count and the
child descriptors are written at exactly that position.  Consequently in
the finished descriptor stream every directory descriptor — at every
depth — carries a block position at which that directory's serialized
child listing actually resides (`aGood`), so a parent always embeds the
correct listing position of each subdirectory. -/
theorem directory_flush_post_order (s : WStream) (n : List Nat) (p : Nat)
    (es : List WEntry) :
    (vafs_directory_flush s n p es).1.out =
      (__flush_children s es).1.out ++ listingBytes (__flush_children s es).2 ∧
    (∃ t, (__flush_children s es).1.out = s.out ++ t) ∧
    (vafs_directory_flush s n p es).2 =
      AEntry.dir n p (vafs_stream_position (__flush_children s es).1)
        (__flush_children s es).2 ∧
    aGood s.blockSize (vafs_directory_flush s n p es).1.out
      (vafs_directory_flush s n p es).2 := by
  obtain ⟨_, _, hout, hdesc, hgood⟩ := flush_spec s n p es
  obtain ⟨_, hmonoc, _, _⟩ := flush_children_spec s es
  exact ⟨hout, hmonoc, hdesc, hgood⟩

/-! ### Stream layout lemmas -/

theorem chunkBlocks_getD (B : Nat) (hB : 0 < B) :
    ∀ (m : Nat) (out : List Nat), out.length ≤ m → ∀ k : Nat,
      (chunkBlocks B out).getD k [] = (out.drop (k * B)).take B := by
  intro m
  induction m with
  | zero =>
      intro out hlen k
      have hnil : out = [] := List.length_eq_zero.1 (Nat.le_zero.1 hlen)
      subst hnil
      rw [chunkBlocks]
      simp
  | succ m ih =>
      intro out hlen k
      rw [chunkBlocks]
      rw [if_neg (by omega : ¬ B = 0)]
      by_cases hout : out = []
      · subst hout; simp
      · rw [if_neg hout]
        cases k with
        | zero => simp
        | succ k =>
            have hdl : (out.drop B).length = out.length - B := List.length_drop _ _
            have hlow : out.length ≠ 0 := fun h => hout (List.length_eq_zero.1 h)
            have := ih (out.drop B) (by omega) k
            rw [List.getD_cons_succ, this, List.drop_drop]
            rw [show (k + 1) * B = B + k * B from by rw [Nat.succ_mul]; omega]

theorem chunkBlocks_len (B : Nat) (hB : 0 < B) :
    ∀ (m : Nat) (out : List Nat), out.length ≤ m →
      out.length ≤ (chunkBlocks B out).length * B ∧
        (chunkBlocks B out).length * B < out.length + B := by
  intro m
  induction m with
  | zero =>
      intro out hlen
      have hnil : out = [] := List.length_eq_zero.1 (Nat.le_zero.1 hlen)
      subst hnil
      rw [chunkBlocks]
      simp [hB]
  | succ m ih =>
      intro out hlen
      rw [chunkBlocks]
      rw [if_neg (by omega : ¬ B = 0)]
      by_cases hout : out = []
      · subst hout; simp [hB]
      · rw [if_neg hout]
        have hdl : (out.drop B).length = out.length - B := List.length_drop _ _
        have hlow : out.length ≠ 0 := fun h => hout (List.length_eq_zero.1 h)
        rw [List.length_cons, Nat.succ_mul]
        by_cases hsmall : out.length ≤ B
        · have hdnil : out.drop B = [] := List.drop_eq_nil_of_le hsmall
          rw [hdnil]
          rw [show chunkBlocks B [] = [] from by rw [chunkBlocks]; simp]
          simp
          omega
        · have := ih (out.drop B) (by omega)
          omega

theorem stream_seek_loop_spec (count B : Nat) (hB : 0 < B) :
    ∀ off i : Nat, __stream_seek_loop count B i off =
      if i + off / B < count then some (i + off / B, off % B) else none := by
  intro off
  induction off using Nat.strong_induction_on with
  | _ off ih =>
      intro i
      rw [__stream_seek_loop]
      by_cases hic : i < count
      · rw [if_pos hic]
        by_cases hoB : off < B
        · rw [if_pos hoB]
          rw [Nat.div_eq_of_lt hoB, Nat.mod_eq_of_lt hoB]
          simp [hic]
        · rw [if_neg hoB, if_neg (by omega : ¬ B = 0)]
          have hBo : B ≤ off := le_of_not_lt hoB
          rw [ih (off - B) (by omega) (i + 1)]
          have hdiv : off / B = (off - B) / B + 1 := by
            rw [Nat.div_eq_sub_div hB hBo]
          have hmod : off % B = (off - B) % B := (Nat.mod_eq_sub_mod hBo)
          rw [hdiv, hmod]
          rw [show i + 1 + (off - B) / B = i + ((off - B) / B + 1) from by omega]
      · rw [if_neg hic]
        rw [if_neg (fun hcon =>
          hic (Nat.lt_of_le_of_lt (Nat.le_add_right i (off / B)) hcon))]

theorem vafs_stream_seek_spec (B : Nat) (out : List Nat) (hB : 0 < B)
    (i o : Nat) (h : i * B + o < out.length) :
    vafs_stream_seek ⟨B, chunkBlocks B out⟩ i o = some (posOf B (i * B + o)) := by
  rw [vafs_stream_seek]
  show __stream_seek_loop (chunkBlocks B out).length B i o = _
  rw [stream_seek_loop_spec _ _ hB]
  have hlen := chunkBlocks_len B hB out.length out (le_refl _)
  have hdiv : (i * B + o) / B = i + o / B := by
    rw [Nat.mul_comm i B, Nat.mul_add_div hB]
  have hmod : (i * B + o) % B = o % B := by
    rw [Nat.mul_comm i B, Nat.mul_add_mod]
  have hcond : i + o / B < (chunkBlocks B out).length := by
    rw [← hdiv]
    rw [Nat.div_lt_iff_lt_mul hB]
    omega
  rw [if_pos hcond, posOf, hdiv, hmod]

theorem drop_take_append (l : List Nat) (p c d : Nat) :
    (l.drop p).take c ++ (l.drop (p + c)).take d = (l.drop p).take (c + d) := by
  rw [List.take_add]
  congr 1
  rw [List.drop_drop, Nat.add_comm]

theorem stream_read_loop_spec (B : Nat) (hB : 0 < B) (out : List Nat) :
    ∀ (n bi off : Nat) (acc : List Nat),
      off < B →
      bi * B + off + n ≤ out.length →
      (bi * B + off + n = out.length → out.length % B ≠ 0) →
      __stream_read_loop (chunkBlocks B out) B bi off n acc =
        some (bi + (off + n) / B, (off + n) % B,
          acc ++ (out.drop (bi * B + off)).take n) := by
  intro n
  induction n using Nat.strong_induction_on with
  | _ n ih =>
      intro bi off acc hoff hle hend
      rw [__stream_read_loop]
      by_cases hn : n = 0
      · subst hn
        rw [if_pos rfl]
        rw [Nat.add_zero, Nat.div_eq_of_lt hoff, Nat.mod_eq_of_lt hoff]
        simp
      · rw [if_neg hn, if_neg (by omega : ¬ B ≤ off)]
        have hgetD := chunkBlocks_getD B hB out.length out (le_refl _) bi
        have hc1 : 1 ≤ min n (B - off) := by omega
        have hcn : min n (B - off) ≤ n := Nat.min_le_left _ _
        have hslice : (((chunkBlocks B out).getD bi []).drop off).take (min n (B - off)) =
            (out.drop (bi * B + off)).take (min n (B - off)) := by
          rw [hgetD, List.drop_take, List.take_take]
          rw [Nat.min_eq_left (by omega : min n (B - off) ≤ B - off)]
          rw [List.drop_drop]
        by_cases hbd : off + min n (B - off) = B
        · rw [if_pos hbd]
          have hlen := chunkBlocks_len B hB out.length out (le_refl _)
          have hplt : bi * B + off + min n (B - off) < out.length := by
            rcases Nat.lt_or_ge (min n (B - off)) n with hlt | hge
            · omega
            · have hceq : min n (B - off) = n := by omega
              rcases Nat.eq_or_lt_of_le hle with heq | hlt2
              · exfalso
                have hmul : bi * B + off + n = (bi + 1) * B := by
                  rw [Nat.succ_mul]
                  omega
                have h0 : out.length % B = 0 := by
                  rw [← heq, hmul]
                  exact Nat.mul_mod_left _ _
                exact hend heq h0
              · omega
          have hbicount : bi + 1 < (chunkBlocks B out).length := by
            have hmm : (bi + 1) * B < (chunkBlocks B out).length * B := by
              rw [Nat.succ_mul]
              omega
            exact Nat.lt_of_mul_lt_mul_right hmm
          rw [if_pos hbicount]
          rw [ih (n - min n (B - off)) (by omega) (bi + 1) 0 _ hB
            (by rw [Nat.succ_mul]; omega)
            (by rw [Nat.succ_mul]; intro hx; exact hend (by omega))]
          have hoffn : off + n = (n - min n (B - off)) + B := by omega
          rw [hoffn, Nat.add_div_right _ hB, Nat.add_mod_right]
          rw [Nat.zero_add]
          rw [show bi + 1 + (n - min n (B - off)) / B =
            bi + ((n - min n (B - off)) / B + 1) from by omega]
          rw [show (bi + 1) * B + 0 = bi * B + off + min n (B - off) from by
            rw [Nat.succ_mul]; omega]
          rw [List.append_assoc, hslice, drop_take_append]
          rw [show min n (B - off) + (n - min n (B - off)) = n from by omega]
        · rw [if_neg hbd]
          have hceq : min n (B - off) = n := by omega
          rw [ih (n - min n (B - off)) (by omega) bi (off + min n (B - off)) _
            (by omega) (by omega) (by intro hx; exact hend (by omega))]
          rw [show off + min n (B - off) + (n - min n (B - off)) = off + n from by omega]
          rw [List.append_assoc, hslice]
          rw [show bi * B + (off + min n (B - off)) = bi * B + off + min n (B - off) from by
            omega]
          rw [drop_take_append]
          rw [show min n (B - off) + (n - min n (B - off)) = n from by omega]

theorem bytesAt_le (out bs : List Nat) (q : Nat) (h : bytesAt out q bs)
    (hne : bs.length ≠ 0) : q + bs.length ≤ out.length := by
  rw [bytesAt] at h
  have h1 : (List.take bs.length (List.drop q out)).length = bs.length := by rw [h]
  rw [List.length_take, List.length_drop] at h1
  omega

theorem bytesAt_slice (out bs : List Nat) (q : Nat) (h : bytesAt out q bs)
    (i j : Nat) (hij : i + j ≤ bs.length) :
    (out.drop (q + i)).take j = (bs.drop i).take j := by
  rw [bytesAt] at h
  have h2 : (((out.drop q).take bs.length).drop i).take j =
      ((out.drop q).drop i).take j := by
    rw [List.drop_take, List.take_take, Nat.min_eq_left (by omega)]
  calc (out.drop (q + i)).take j
      = ((out.drop q).drop i).take j := by rw [List.drop_drop, Nat.add_comm]
    _ = (((out.drop q).take bs.length).drop i).take j := h2.symm
    _ = (bs.drop i).take j := by rw [h]

theorem bytesAt_split (out x y : List Nat) (q : Nat)
    (h : bytesAt out q (x ++ y)) :
    bytesAt out q x ∧ bytesAt out (q + x.length) y := by
  constructor
  · have := bytesAt_slice out (x ++ y) q h 0 x.length
      (by rw [List.length_append]; omega)
    rw [Nat.add_zero, List.drop_zero, List.take_left] at this
    rw [bytesAt]
    exact this
  · have := bytesAt_slice out (x ++ y) q h x.length y.length
      (by rw [List.length_append])
    rw [List.drop_left, List.take_length] at this
    rw [bytesAt]
    exact this

theorem stream_read_state_spec (B : Nat) (out : List Nat) (hB : 0 < B)
    (hna : out.length % B ≠ 0) (q n : Nat) (hn : n ≠ 0)
    (hle : q + n ≤ out.length) :
    stream_read_state ⟨B, chunkBlocks B out⟩ (posOf B q) n =
      some (posOf B (q + n), (out.drop q).take n) := by
  have hq : q / B * B + q % B = q := by
    rw [Nat.mul_comm]
    exact Nat.div_add_mod q B
  have hdiv : q / B + (q % B + n) / B = (q + n) / B := by
    conv_rhs => rw [← hq]
    rw [Nat.add_assoc, Nat.mul_comm (q / B) B, Nat.mul_add_div hB]
  have hmod : (q % B + n) % B = (q + n) % B := by
    conv_rhs => rw [← hq]
    rw [Nat.add_assoc, Nat.mul_comm (q / B) B, Nat.mul_add_mod]
  have hloop := stream_read_loop_spec B hB out n (q / B) (q % B) []
    (Nat.mod_lt _ hB) (by omega) (fun _ => hna)
  rw [hq, List.nil_append, hdiv, hmod] at hloop
  rw [stream_read_state, vafs_stream_read, if_neg hn]
  simp only [posOf]
  rw [hloop]

theorem read_descriptor_spec (B : Nat) (out : List Nat) (hB : 0 < B)
    (hna : out.length % B ≠ 0) (a : AEntry) (q : Nat) (hwf : entryWF a)
    (hbytes : bytesAt out q (descriptorBytes a)) :
    __read_descriptor ⟨B, chunkBlocks B out⟩ (posOf B q) =
      some (posOf B (q + (descriptorBytes a).length), pdescOf a) := by
  match a with
  | AEntry.file n p di dof l =>
    rw [entryWF] at hwf
    obtain ⟨hb1, hb2, hb3, hb4, hb5⟩ := hwf
    have hlen : (descriptorBytes (AEntry.file n p di dof l)).length = 20 + n.length := by
      simp [descriptorBytes, encodeU16, encodeU32]
      omega
    have hall : q + (20 + n.length) ≤ out.length := by
      have h := bytesAt_le out _ q hbytes (by rw [hlen]; omega)
      rw [hlen] at h
      exact h
    have hs1 : (out.drop q).take 4 =
        [1, 0, (20 + n.length) % 256, (20 + n.length) / 256 % 256] := by
      have h := bytesAt_slice out _ q hbytes 0 4 (by rw [hlen]; omega)
      rw [Nat.add_zero] at h
      rw [h]
      simp [descriptorBytes, encodeU16, encodeU32, VA_FS_DESCRIPTOR_TYPE_FILE]
    have hs2 : (out.drop (q + 4)).take 16 =
        [di % 256, di / 256 % 256, di / 65536 % 256, di / 16777216 % 256,
         dof % 256, dof / 256 % 256, dof / 65536 % 256, dof / 16777216 % 256,
         l % 256, l / 256 % 256, l / 65536 % 256, l / 16777216 % 256,
         p % 256, p / 256 % 256, p / 65536 % 256, p / 16777216 % 256] := by
      have h := bytesAt_slice out _ q hbytes 4 16 (by rw [hlen]; omega)
      rw [h]
      simp [descriptorBytes, encodeU16, encodeU32, VA_FS_DESCRIPTOR_TYPE_FILE]
    have hr1 := stream_read_state_spec B out hB hna q 4 (by omega) (by omega)
    have hr2 := stream_read_state_spec B out hB hna (q + 4) 16 (by omega) (by omega)
    rw [show q + 4 + 16 = q + 20 from by omega] at hr2
    have e1 : (20 + n.length) % 256 + 256 * ((20 + n.length) / 256 % 256) =
        20 + n.length := by omega
    have e2 : di % 256 + 256 * (di / 256 % 256) + 65536 * (di / 65536 % 256) +
        16777216 * (di / 16777216 % 256) = di := by omega
    have e3 : dof % 256 + 256 * (dof / 256 % 256) + 65536 * (dof / 65536 % 256) +
        16777216 * (dof / 16777216 % 256) = dof := by omega
    have e4 : l % 256 + 256 * (l / 256 % 256) + 65536 * (l / 65536 % 256) +
        16777216 * (l / 16777216 % 256) = l := by omega
    have e5 : p % 256 + 256 * (p / 256 % 256) + 65536 * (p / 65536 % 256) +
        16777216 * (p / 16777216 % 256) = p := by omega
    have hc1 : ¬ (20 + n.length < 4) := by omega
    have hc2 : ¬ (20 + n.length < 20) := by omega
    by_cases hn0 : n = []
    · subst hn0
      rw [__read_descriptor, hr1]
      simp [hs1, hs2, hr2, decodeU16, decodeU32, List.getD, __get_descriptor_size,
        VA_FS_DESCRIPTOR_TYPE_FILE, VA_FS_DESCRIPTOR_TYPE_DIRECTORY,
        VA_FS_DESCRIPTOR_TYPE_SYMLINK, __create_entry_from_descriptor,
        descriptorBytes, encodeU16, encodeU32, pdescOf, e1, e2, e3, e4, e5,
        hc1, hc2]
    · have hnl : n.length ≠ 0 := fun h => hn0 (List.length_eq_zero.1 h)
      have hc3 : ¬ (20 + n.length = 20) := by omega
      have harith : 20 + n.length - 20 = n.length := by omega
      have hs3 : (out.drop (q + 20)).take n.length = n := by
        have h := bytesAt_slice out _ q hbytes 20 n.length (by rw [hlen])
        rw [h]
        simp [descriptorBytes, encodeU16, encodeU32, VA_FS_DESCRIPTOR_TYPE_FILE]
      have hr3 := stream_read_state_spec B out hB hna (q + 20) n.length hnl
        (by omega)
      rw [show q + 20 + n.length = q + (20 + n.length) from by omega] at hr3
      rw [__read_descriptor, hr1]
      simp [hs1, hs2, hs3, hr2, hr3, decodeU16, decodeU32, List.getD,
        __get_descriptor_size, VA_FS_DESCRIPTOR_TYPE_FILE,
        VA_FS_DESCRIPTOR_TYPE_DIRECTORY, VA_FS_DESCRIPTOR_TYPE_SYMLINK,
        __create_entry_from_descriptor, descriptorBytes, encodeU16, encodeU32,
        pdescOf, e1, e2, e3, e4, e5, hc1, hc2, hc3, harith]
      congr 1
      omega
  | AEntry.dir n p pos aes =>
    rw [entryWF] at hwf
    obtain ⟨hb1, hb2, hb3, hb4, hb5, hb6, hb7⟩ := hwf
    have hlen : (descriptorBytes (AEntry.dir n p pos aes)).length = 16 + n.length := by
      simp [descriptorBytes, encodeU16, encodeU32]
      omega
    have hall : q + (16 + n.length) ≤ out.length := by
      have h := bytesAt_le out _ q hbytes (by rw [hlen]; omega)
      rw [hlen] at h
      exact h
    have hs1 : (out.drop q).take 4 =
        [2, 0, (16 + n.length) % 256, (16 + n.length) / 256 % 256] := by
      have h := bytesAt_slice out _ q hbytes 0 4 (by rw [hlen]; omega)
      rw [Nat.add_zero] at h
      rw [h]
      simp [descriptorBytes, encodeU16, encodeU32, VA_FS_DESCRIPTOR_TYPE_DIRECTORY]
    have hs2 : (out.drop (q + 4)).take 12 =
        [pos.1 % 256, pos.1 / 256 % 256, pos.1 / 65536 % 256, pos.1 / 16777216 % 256,
         pos.2 % 256, pos.2 / 256 % 256, pos.2 / 65536 % 256, pos.2 / 16777216 % 256,
         p % 256, p / 256 % 256, p / 65536 % 256, p / 16777216 % 256] := by
      have h := bytesAt_slice out _ q hbytes 4 12 (by rw [hlen]; omega)
      rw [h]
      simp [descriptorBytes, encodeU16, encodeU32, VA_FS_DESCRIPTOR_TYPE_DIRECTORY]
    have hr1 := stream_read_state_spec B out hB hna q 4 (by omega) (by omega)
    have hr2 := stream_read_state_spec B out hB hna (q + 4) 12 (by omega) (by omega)
    rw [show q + 4 + 12 = q + 16 from by omega] at hr2
    have e1 : (16 + n.length) % 256 + 256 * ((16 + n.length) / 256 % 256) =
        16 + n.length := by omega
    have e2 : pos.1 % 256 + 256 * (pos.1 / 256 % 256) + 65536 * (pos.1 / 65536 % 256) +
        16777216 * (pos.1 / 16777216 % 256) = pos.1 := by omega
    have e3 : pos.2 % 256 + 256 * (pos.2 / 256 % 256) + 65536 * (pos.2 / 65536 % 256) +
        16777216 * (pos.2 / 16777216 % 256) = pos.2 := by omega
    have e4 : p % 256 + 256 * (p / 256 % 256) + 65536 * (p / 65536 % 256) +
        16777216 * (p / 16777216 % 256) = p := by omega
    have hc1 : ¬ (16 + n.length < 4) := by omega
    have hc2 : ¬ (16 + n.length < 16) := by omega
    by_cases hn0 : n = []
    · subst hn0
      rw [__read_descriptor, hr1]
      simp [hs1, hs2, hr2, decodeU16, decodeU32, List.getD, __get_descriptor_size,
        VA_FS_DESCRIPTOR_TYPE_FILE, VA_FS_DESCRIPTOR_TYPE_DIRECTORY,
        VA_FS_DESCRIPTOR_TYPE_SYMLINK, __create_entry_from_descriptor,
        descriptorBytes, encodeU16, encodeU32, pdescOf, e1, e2, e3, e4,
        hc1, hc2]
    · have hnl : n.length ≠ 0 := fun h => hn0 (List.length_eq_zero.1 h)
      have hc3 : ¬ (16 + n.length = 16) := by omega
      have harith : 16 + n.length - 16 = n.length := by omega
      have hs3 : (out.drop (q + 16)).take n.length = n := by
        have h := bytesAt_slice out _ q hbytes 16 n.length (by rw [hlen])
        rw [h]
        simp [descriptorBytes, encodeU16, encodeU32, VA_FS_DESCRIPTOR_TYPE_DIRECTORY]
      have hr3 := stream_read_state_spec B out hB hna (q + 16) n.length hnl
        (by omega)
      rw [show q + 16 + n.length = q + (16 + n.length) from by omega] at hr3
      rw [__read_descriptor, hr1]
      simp [hs1, hs2, hs3, hr2, hr3, decodeU16, decodeU32, List.getD,
        __get_descriptor_size, VA_FS_DESCRIPTOR_TYPE_FILE,
        VA_FS_DESCRIPTOR_TYPE_DIRECTORY, VA_FS_DESCRIPTOR_TYPE_SYMLINK,
        __create_entry_from_descriptor, descriptorBytes, encodeU16, encodeU32,
        pdescOf, e1, e2, e3, e4, hc1, hc2, hc3, harith]
      congr 1
      omega
  | AEntry.symlink n t =>
    rw [entryWF] at hwf
    have hlen : (descriptorBytes (AEntry.symlink n t)).length =
        8 + n.length + t.length := by
      simp [descriptorBytes, encodeU16, encodeU32]
      omega
    have hall : q + (8 + n.length + t.length) ≤ out.length := by
      have h := bytesAt_le out _ q hbytes (by rw [hlen]; omega)
      rw [hlen] at h
      exact h
    have hs1 : (out.drop q).take 4 =
        [3, 0, (8 + n.length + t.length) % 256,
         (8 + n.length + t.length) / 256 % 256] := by
      have h := bytesAt_slice out _ q hbytes 0 4 (by rw [hlen]; omega)
      rw [Nat.add_zero] at h
      rw [h]
      simp [descriptorBytes, encodeU16, encodeU32, VA_FS_DESCRIPTOR_TYPE_SYMLINK]
    have hs2 : (out.drop (q + 4)).take 4 =
        [n.length % 256, n.length / 256 % 256,
         t.length % 256, t.length / 256 % 256] := by
      have h := bytesAt_slice out _ q hbytes 4 4 (by rw [hlen]; omega)
      rw [h]
      simp [descriptorBytes, encodeU16, encodeU32, VA_FS_DESCRIPTOR_TYPE_SYMLINK]
    have hr1 := stream_read_state_spec B out hB hna q 4 (by omega) (by omega)
    have hr2 := stream_read_state_spec B out hB hna (q + 4) 4 (by omega) (by omega)
    rw [show q + 4 + 4 = q + 8 from by omega] at hr2
    have e1 : (8 + n.length + t.length) % 256 +
        256 * ((8 + n.length + t.length) / 256 % 256) =
        8 + n.length + t.length := by omega
    have enl : n.length % 256 + 256 * (n.length / 256 % 256) = n.length := by omega
    have etl : t.length % 256 + 256 * (t.length / 256 % 256) = t.length := by omega
    have hc1 : ¬ (8 + n.length + t.length < 4) := by omega
    have hc2 : ¬ (8 + n.length + t.length < 8) := by omega
    by_cases hz : n.length + t.length = 0
    · have hn0 : n = [] := List.length_eq_zero.1 (by omega)
      have ht0 : t = [] := List.length_eq_zero.1 (by omega)
      subst hn0
      subst ht0
      rw [__read_descriptor, hr1]
      simp [hs1, hs2, hr2, decodeU16, decodeU32, List.getD, __get_descriptor_size,
        VA_FS_DESCRIPTOR_TYPE_FILE, VA_FS_DESCRIPTOR_TYPE_DIRECTORY,
        VA_FS_DESCRIPTOR_TYPE_SYMLINK, __create_entry_from_descriptor,
        descriptorBytes, encodeU16, encodeU32, pdescOf, e1, enl, etl, hc1, hc2]
    · have hc3 : ¬ (8 + n.length + t.length = 8) := by omega
      have harith : 8 + n.length + t.length - 8 = n.length + t.length := by omega
      have hs3 : (out.drop (q + 8)).take (n.length + t.length) = n ++ t := by
        have h := bytesAt_slice out _ q hbytes 8 (n.length + t.length)
          (by rw [hlen]; omega)
        rw [h]
        simp [descriptorBytes, encodeU16, encodeU32, VA_FS_DESCRIPTOR_TYPE_SYMLINK]
      have hr3 := stream_read_state_spec B out hB hna (q + 8)
        (n.length + t.length) hz (by omega)
      rw [show q + 8 + (n.length + t.length) = q + (8 + n.length + t.length)
        from by omega] at hr3
      have htk : (n ++ t).take n.length = n := List.take_left n t
      have hdk : (n ++ t).drop n.length = t := List.drop_left n t
      rw [__read_descriptor, hr1]
      simp [hs1, hs2, hs3, hr2, hr3, decodeU16, decodeU32, List.getD,
        __get_descriptor_size, VA_FS_DESCRIPTOR_TYPE_FILE,
        VA_FS_DESCRIPTOR_TYPE_DIRECTORY, VA_FS_DESCRIPTOR_TYPE_SYMLINK,
        __create_entry_from_descriptor, descriptorBytes, encodeU16, encodeU32,
        pdescOf, e1, enl, etl, hc1, hc2, hc3, harith, htk, hdk]
      congr 1
      omega

theorem listWF_iff : ∀ l : List AEntry, listWF l ↔ ∀ a ∈ l, entryWF a
  | [] => by rw [listWF]; simp
  | a :: rest => by
      rw [listWF, listWF_iff rest]
      simp

theorem aGoodList_iff (B : Nat) (out : List Nat) :
    ∀ l : List AEntry, aGoodList B out l ↔ ∀ a ∈ l, aGood B out a
  | [] => by rw [aGoodList]; simp
  | a :: rest => by
      rw [aGoodList, aGoodList_iff B out rest]
      simp

theorem needFuelList_le_iff (f : Nat) :
    ∀ l : List AEntry, needFuelList l ≤ f ↔ ∀ a ∈ l, needFuel a ≤ f
  | [] => by rw [needFuelList]; simp
  | a :: rest => by
      rw [needFuelList]
      rw [Nat.max_le]
      rw [needFuelList_le_iff f rest]
      simp

theorem mirrorList_eq : ∀ l : List AEntry,
    mirrorList l = (l.map mirrorEntry).reverse
  | [] => by rw [mirrorList]; simp
  | a :: rest => by
      rw [mirrorList, mirrorList_eq rest]
      simp

theorem load_directory_loop_spec (B : Nat) (out : List Nat) (hB : 0 < B)
    (hna : out.length % B ≠ 0) :
    ∀ (aes : List AEntry) (q : Nat) (r : VaFsDirectoryReader),
      listWF aes →
      bytesAt out q ((aes.map descriptorBytes).flatten) →
      __load_directory_loop ⟨B, chunkBlocks B out⟩ aes.length (posOf B q) r =
        (⟨VaFsDirectoryState.loadedState, (aes.map pdescOf).reverse ++ r.entries⟩,
          true)
  | [], q, r, _, _ => by
      simp [__load_directory_loop]
  | a :: rest, q, r, hwf, hbytes => by
      rw [listWF] at hwf
      rw [List.map_cons, List.flatten_cons] at hbytes
      have hsplit := bytesAt_split out _ _ q hbytes
      have hrd := read_descriptor_spec B out hB hna a q hwf.1 hsplit.1
      have hrec := load_directory_loop_spec B out hB hna rest
        (q + (descriptorBytes a).length)
        { r with entries := pdescOf a :: r.entries } hwf.2 hsplit.2
      show __load_directory_loop ⟨B, chunkBlocks B out⟩ (rest.length + 1)
        (posOf B q) r = _
      rw [__load_directory_loop]
      simp only [hrd]
      rw [hrec]
      simp

theorem load_directory_spec (B : Nat) (out : List Nat) (hB : 0 < B)
    (hna : out.length % B ≠ 0) (aes : List AEntry) (di doff : Nat)
    (hinv : di ≠ VA_FS_INVALID_BLOCK)
    (hcount : aes.length < 2 ^ 32)
    (hwf : listWF aes)
    (hbytes : bytesAt out (di * B + doff) (listingBytes aes)) :
    __load_directory ⟨B, chunkBlocks B out⟩ ⟨VaFsDirectoryState.openState, []⟩
        di doff =
      (⟨VaFsDirectoryState.loadedState, (aes.map pdescOf).reverse⟩, true) := by
  have hlistlen : (listingBytes aes).length =
      4 + ((aes.map descriptorBytes).flatten).length := by
    simp [listingBytes, encodeU32]
    omega
  have hle : di * B + doff + (listingBytes aes).length ≤ out.length :=
    bytesAt_le out _ _ hbytes (by omega)
  have hseek : vafs_stream_seek ⟨B, chunkBlocks B out⟩ di doff =
      some (posOf B (di * B + doff)) :=
    vafs_stream_seek_spec B out hB di doff (by omega)
  rw [listingBytes] at hbytes
  have hsplit := bytesAt_split out _ _ _ hbytes
  have hcnt : (out.drop (di * B + doff)).take 4 = encodeU32 aes.length := by
    have h := hsplit.1
    rw [bytesAt, show (encodeU32 aes.length).length = 4 from by simp [encodeU32]]
      at h
    exact h
  have hr1 := stream_read_state_spec B out hB hna (di * B + doff) 4
    (by omega) (by omega)
  have hloop := load_directory_loop_spec B out hB hna aes (di * B + doff + 4)
    ⟨VaFsDirectoryState.openState, []⟩ hwf
    (by
      have h := hsplit.2
      rw [show (encodeU32 aes.length).length = 4 from by simp [encodeU32]] at h
      exact h)
  have hdec : decodeU32 (encodeU32 aes.length) = aes.length := by
    simp [decodeU32, encodeU32, List.getD]
    omega
  rw [__load_directory, if_neg hinv, hseek]
  simp only [hr1, hcnt, hdec, hloop]
  simp

theorem loadEntries_spec_aux (B : Nat) (out : List Nat) (f : Nat)
    (hA : ∀ (aes : List AEntry) (di doff : Nat),
      needFuelList aes < f → listWF aes → aes.length < 2 ^ 32 →
      di ≠ VA_FS_INVALID_BLOCK → aGoodList B out aes →
      bytesAt out (di * B + doff) (listingBytes aes) →
      loadTree f ⟨B, chunkBlocks B out⟩ di doff = some (mirrorList aes)) :
    ∀ m : List AEntry,
      needFuelList m ≤ f → listWF m → aGoodList B out m →
      loadEntries f ⟨B, chunkBlocks B out⟩ (m.map pdescOf) =
        some (m.map mirrorEntry)
  | [], _, _, _ => by
      simp [loadEntries]
  | a :: rest, hf, hwf, hgood => by
      rw [needFuelList, Nat.max_le] at hf
      rw [listWF] at hwf
      rw [aGoodList] at hgood
      have hrec := loadEntries_spec_aux B out f hA rest hf.2 hwf.2 hgood.2
      cases a with
      | file n p di dof l =>
          rw [List.map_cons]
          show loadEntries f ⟨B, chunkBlocks B out⟩
            (PDesc.file n p di dof l :: rest.map pdescOf) = _
          rw [loadEntries, hrec]
          simp [mirrorEntry]
      | symlink n t =>
          rw [List.map_cons]
          show loadEntries f ⟨B, chunkBlocks B out⟩
            (PDesc.symlink n t :: rest.map pdescOf) = _
          rw [loadEntries, hrec]
          simp [mirrorEntry]
      | dir n p pos aes =>
          have hwfd := hwf.1
          rw [entryWF] at hwfd
          obtain ⟨_, _, _, _, hinv, hcount, hwf'⟩ := hwfd
          have hgd := hgood.1
          rw [aGood] at hgd
          have hfd : needFuelList aes < f := by
            have := hf.1
            rw [needFuel] at this
            omega
          have htree := hA aes pos.1 pos.2 hfd hwf' hcount hinv hgd.2 hgd.1
          rw [List.map_cons]
          show loadEntries f ⟨B, chunkBlocks B out⟩
            (PDesc.dir n p pos :: rest.map pdescOf) = _
          rw [loadEntries]
          simp only [htree, hrec]
          simp [mirrorEntry]

theorem load_spec (B : Nat) (out : List Nat) (hB : 0 < B)
    (hna : out.length % B ≠ 0) :
    ∀ f : Nat,
      (∀ (aes : List AEntry) (di doff : Nat),
        needFuelList aes < f → listWF aes → aes.length < 2 ^ 32 →
        di ≠ VA_FS_INVALID_BLOCK → aGoodList B out aes →
        bytesAt out (di * B + doff) (listingBytes aes) →
        loadTree f ⟨B, chunkBlocks B out⟩ di doff = some (mirrorList aes)) ∧
      (∀ m : List AEntry,
        needFuelList m ≤ f → listWF m → aGoodList B out m →
        loadEntries f ⟨B, chunkBlocks B out⟩ (m.map pdescOf) =
          some (m.map mirrorEntry)) := by
  intro f
  induction f with
  | zero =>
      have hA : ∀ (aes : List AEntry) (di doff : Nat),
          needFuelList aes < 0 → listWF aes → aes.length < 2 ^ 32 →
          di ≠ VA_FS_INVALID_BLOCK → aGoodList B out aes →
          bytesAt out (di * B + doff) (listingBytes aes) →
          loadTree 0 ⟨B, chunkBlocks B out⟩ di doff = some (mirrorList aes) := by
        intro aes di doff hf
        exact absurd hf (Nat.not_lt_zero _)
      exact ⟨hA, loadEntries_spec_aux B out 0 hA⟩
  | succ f ih =>
      have hA : ∀ (aes : List AEntry) (di doff : Nat),
          needFuelList aes < f + 1 → listWF aes → aes.length < 2 ^ 32 →
          di ≠ VA_FS_INVALID_BLOCK → aGoodList B out aes →
          bytesAt out (di * B + doff) (listingBytes aes) →
          loadTree (f + 1) ⟨B, chunkBlocks B out⟩ di doff =
            some (mirrorList aes) := by
        intro aes di doff hf hwf hcount hinv hgood hbytes
        rw [loadTree]
        rw [load_directory_spec B out hB hna aes di doff hinv hcount hwf hbytes]
        have hrev : loadEntries f ⟨B, chunkBlocks B out⟩
            (aes.reverse.map pdescOf) = some (aes.reverse.map mirrorEntry) := by
          apply ih.2 aes.reverse
          · rw [needFuelList_le_iff]
            intro a ha
            rw [List.mem_reverse] at ha
            have := (needFuelList_le_iff f aes).1 (by omega)
            exact this a ha
          · rw [listWF_iff]
            intro a ha
            rw [List.mem_reverse] at ha
            exact (listWF_iff aes).1 hwf a ha
          · rw [aGoodList_iff]
            intro a ha
            rw [List.mem_reverse] at ha
            exact (aGoodList_iff B out aes).1 hgood a ha
        rw [List.map_reverse] at hrev
        show loadEntries f ⟨B, chunkBlocks B out⟩ ((aes.map pdescOf).reverse) = _
        rw [hrev, mirrorList_eq, List.map_reverse]
      exact ⟨hA, loadEntries_spec_aux B out (f + 1) hA⟩

/-- C1 counterexample.  A writer root whose handle list holds file "a"
then file "b" (the writer pushes each new child at the head, so "b" was
added first and "a" last).  `vafs_directory_flush` emits the two
descriptors in list order, and the reopened reader (`__load_directory`
prepends each parsed entry) iterates them as "b" then "a" — the reverse
of the writer handle order, so `open(build(T))` does not preserve the
iteration order. -/
theorem directory_roundtrip_order_counterexample :
    loadTree 2
        ⟨8192, chunkBlocks 8192
          (vafs_directory_flush ⟨8192, []⟩ [114, 111, 111, 116] 0o777
            [WEntry.file [97] 0 0 0 0, WEntry.file [98] 0 0 0 0]).1.out⟩
        0 0 =
      some [AEntry.file [98] 0 0 0 0, AEntry.file [97] 0 0 0 0] ∧
    [AEntry.file [98] 0 0 0 0, AEntry.file [97] 0 0 0 0] ≠
      [AEntry.file [97] 0 0 0 0, AEntry.file [98] 0 0 0 0] := by
  constructor
  · simp [vafs_directory_flush, __flush_children, __write_descriptors,
      vafs_stream_write, vafs_stream_position, listingBytes, descriptorBytes,
      encodeU16, encodeU32, chunkBlocks, loadTree, loadEntries,
      __load_directory, vafs_stream_seek, __stream_seek_loop,
      stream_read_state, vafs_stream_read, __stream_read_loop,
      __load_directory_loop, __read_descriptor,
      __create_entry_from_descriptor, decodeU16, decodeU32, List.getD,
      __get_descriptor_size, VA_FS_DESCRIPTOR_TYPE_FILE,
      VA_FS_DESCRIPTOR_TYPE_DIRECTORY, VA_FS_DESCRIPTOR_TYPE_SYMLINK,
      VA_FS_INVALID_BLOCK, posOf]
  · simp

/-- C1 (amended).  Round-trip with reversal: building any writer tree from
an empty descriptor stream and re-opening the image at the root's captured
child-listing position (the header glue of the missing `vafs.c` stores
exactly this position) reproduces the tree up to per-directory reversal:
the materialized reader tree is `mirrorList` of the flushed annotated
tree — same structure, names, permissions, data positions and symlink
targets, but every directory's children iterate in the reverse of the
writer's handle order.  The numeric side conditions keep the writer's
u16/u32 casts from wrapping, and the final stream must not end exactly on
a descriptor-block boundary (`vafs_stream_read` would demand a block past
the end, C8). -/
theorem directory_roundtrip_reversed
    (B : Nat) (n : List Nat) (p : Nat) (es : List WEntry) (fuel : Nat)
    (hB : 0 < B)
    (hna : (vafs_directory_flush ⟨B, []⟩ n p es).1.out.length % B ≠ 0)
    (hwf : listWF (__flush_children ⟨B, []⟩ es).2)
    (hcount : (__flush_children ⟨B, []⟩ es).2.length < 2 ^ 32)
    (hinv : (vafs_stream_position (__flush_children ⟨B, []⟩ es).1).1 ≠
      VA_FS_INVALID_BLOCK)
    (hfuel : needFuelList (__flush_children ⟨B, []⟩ es).2 < fuel) :
    loadTree fuel
        ⟨B, chunkBlocks B (vafs_directory_flush ⟨B, []⟩ n p es).1.out⟩
        (vafs_stream_position (__flush_children ⟨B, []⟩ es).1).1
        (vafs_stream_position (__flush_children ⟨B, []⟩ es).1).2 =
      some (mirrorList (__flush_children ⟨B, []⟩ es).2) := by
  obtain ⟨hbs, hmono, hout, hdesc, hgood⟩ := flush_spec ⟨B, []⟩ n p es
  rw [hdesc, aGood] at hgood
  exact (load_spec B _ hB hna fuel).1 _ _ _ hfuel hwf hcount hinv
    hgood.2 hgood.1

/-- Witness for C1: the amended round-trip applied to a concrete root
with a symlink, an empty subdirectory and a file, at the real 8 KiB
descriptor block size. -/
theorem c1_flush_child_eval :
    vafs_directory_flush ⟨8192, []⟩ [100] 0o755 [] =
      (⟨8192, [0, 0, 0, 0]⟩, AEntry.dir [100] 0o755 (0, 0) []) := by
  rw [vafs_directory_flush_eq, flush_children_nil_eq]
  rfl

theorem c1_flush_children_eval :
    __flush_children ⟨8192, []⟩ c1WitnessTree =
      (⟨8192, [0, 0, 0, 0]⟩,
        [AEntry.symlink [115] [116], AEntry.dir [100] 0o755 (0, 0) [],
         AEntry.file [99] 420 0 0 5]) := by
  rw [c1WitnessTree, flush_children_symlink_eq, flush_children_dir_eq,
    c1_flush_child_eval, flush_children_file_eq, flush_children_nil_eq]

theorem directory_roundtrip_reversed_witness :
    ((vafs_directory_flush ⟨8192, []⟩ [114, 111, 111, 116] 0o777
        c1WitnessTree).1.out.length % 8192 ≠ 0 ∧
      listWF (__flush_children ⟨8192, []⟩ c1WitnessTree).2 ∧
      needFuelList (__flush_children ⟨8192, []⟩ c1WitnessTree).2 < 2) ∧
    loadTree 2
        ⟨8192, chunkBlocks 8192
          (vafs_directory_flush ⟨8192, []⟩ [114, 111, 111, 116] 0o777
            c1WitnessTree).1.out⟩
        (vafs_stream_position (__flush_children ⟨8192, []⟩ c1WitnessTree).1).1
        (vafs_stream_position (__flush_children ⟨8192, []⟩ c1WitnessTree).1).2 =
      some (mirrorList (__flush_children ⟨8192, []⟩ c1WitnessTree).2) :=
  ⟨⟨by rw [vafs_directory_flush_eq, c1_flush_children_eval]; decide,
    by rw [c1_flush_children_eval]; simp [listWF, entryWF, VA_FS_INVALID_BLOCK],
    by rw [c1_flush_children_eval]; simp [needFuelList, needFuel]⟩,
   directory_roundtrip_reversed 8192 [114, 111, 111, 116] 0o777
     c1WitnessTree 2 (by decide)
     (by rw [vafs_directory_flush_eq, c1_flush_children_eval]; decide)
     (by rw [c1_flush_children_eval]; simp [listWF, entryWF, VA_FS_INVALID_BLOCK])
     (by rw [c1_flush_children_eval]; decide)
     (by rw [c1_flush_children_eval]; decide)
     (by rw [c1_flush_children_eval]; simp [needFuelList, needFuel])⟩

theorem cache_get_miss (c : VaFsBlockCache) (i : Nat)
    (h : cacheFind c.cache i = none) :
    vafs_cache_get c i = ({ c with heatmap := __heatmap_hit c.heatmap i }, none) := by
  rw [vafs_cache_get, h]

theorem cache_get_hit (c : VaFsBlockCache) (i : Nat) (b : BlockEntry)
    (h : cacheFind c.cache i = some b) :
    vafs_cache_get c i =
      ({ c with
          heatmap := __heatmap_hit c.heatmap i
          cache := cacheBumpUses c.cache i },
        some (b.buffer, b.size)) := by
  rw [vafs_cache_get, h]

theorem load_hit_eq (crc : List Nat → Nat) (s : VaFsStreamR) (i : Nat)
    (b : BlockEntry) (hfind : cacheFind s.cache.cache i = some b) :
    __load_blockbuffer crc s i =
      ({ s with cache :=
          { s.cache with
              heatmap := __heatmap_hit s.cache.heatmap i
              cache := cacheBumpUses s.cache.cache i } },
        Except.ok b.buffer) := by
  rw [__load_blockbuffer, cache_get_hit _ _ _ hfind]

theorem load_miss_eq (crc : List Nat → Nat) (s : VaFsStreamR) (i : Nat)
    (hfind : cacheFind s.cache.cache i = none) :
    __load_blockbuffer crc s i =
      __load_miss crc s
        { s.cache with heatmap := __heatmap_hit s.cache.heatmap i } i := by
  rw [__load_blockbuffer, cache_get_miss _ _ hfind]

theorem load_fail_state (crc : List Nat → Nat) (s : VaFsStreamR) (i : Nat)
    (e : LoadErr) (hf : (__load_blockbuffer crc s i).2 = Except.error e) :
    (__load_blockbuffer crc s i).1 =
      { s with cache := { s.cache with heatmap := __heatmap_hit s.cache.heatmap i } } := by
  cases hfind : cacheFind s.cache.cache i with
  | some b =>
      rw [load_hit_eq crc s i b hfind] at hf
      exact absurd hf (by simp)
  | none =>
      rw [load_miss_eq crc s i hfind] at hf ⊢
      rw [__load_miss] at hf ⊢
      rcases Option.eq_none_or_eq_some (s.headers[i]?) with hh | ⟨h, hh⟩
      · simp only [hh]
      · simp only [hh] at hf ⊢
        by_cases hb : h.offset + h.lengthOnDisk ≤ s.device.length
        · rw [if_pos hb] at hf ⊢
          rcases Option.eq_none_or_eq_some
              (__decode_step s ((s.device.drop h.offset).take h.lengthOnDisk)) with
            hd | ⟨decoded, hd⟩
          · simp only [hd]
          · simp only [hd] at hf ⊢
            by_cases hcrc : crc decoded ≠ h.crc
            · rw [if_pos hcrc]
            · rw [if_neg hcrc] at hf
              exact absurd hf (by simp)
        · rw [if_neg hb]

theorem load_value_congr (crc : List Nat → Nat) (s t : VaFsStreamR) (j : Nat)
    (hh : s.headers = t.headers) (hd : s.device = t.device)
    (hdec : s.decode = t.decode) (hc : s.cache.cache = t.cache.cache) :
    (__load_blockbuffer crc s j).2 = (__load_blockbuffer crc t j).2 := by
  have hds : ∀ raw, __decode_step s raw = __decode_step t raw := by
    intro raw
    rw [__decode_step, __decode_step, hdec]
  cases hfind : cacheFind s.cache.cache j with
  | some b =>
      rw [load_hit_eq crc s j b hfind,
        load_hit_eq crc t j b (by rw [← hc]; exact hfind)]
  | none =>
      rw [load_miss_eq crc s j hfind,
        load_miss_eq crc t j (by rw [← hc]; exact hfind)]
      rw [__load_miss, __load_miss, hh, hd]
      rcases Option.eq_none_or_eq_some (t.headers[j]?) with hhh | ⟨hdr, hhh⟩
      · simp only [hhh]
      · simp only [hhh]
        by_cases hb : hdr.offset + hdr.lengthOnDisk ≤ t.device.length
        · rw [if_pos hb, if_pos hb, hds]
          rcases Option.eq_none_or_eq_some
              (__decode_step t ((t.device.drop hdr.offset).take hdr.lengthOnDisk)) with
            hdd | ⟨decoded, hdd⟩
          · simp only [hdd]
          · simp only [hdd]
            by_cases hcrc : crc decoded ≠ hdr.crc
            · rw [if_pos hcrc, if_pos hcrc]
            · rw [if_neg hcrc, if_neg hcrc]
        · rw [if_neg hb, if_neg hb]

/-- C2.  For every block loaded from the device (cache miss), the CRC is
computed over the decoded staging bytes and compared with the block-index
entry's; the load fails with an integrity error exactly on mismatch, and
such a failure does not prevent a subsequent load of any block whose CRC
matches. -/
theorem crc_verified_on_load :
    (∀ (crc : List Nat → Nat) (s : VaFsStreamR) (i : Nat) (h : BlockHeaderR)
        (decoded : List Nat),
      cacheFind s.cache.cache i = none →
      s.headers[i]? = some h →
      h.offset + h.lengthOnDisk ≤ s.device.length →
      __decode_step s ((s.device.drop h.offset).take h.lengthOnDisk) = some decoded →
      ((crc decoded ≠ h.crc ↔
          (__load_blockbuffer crc s i).2 = Except.error LoadErr.crcMismatch) ∧
        (crc decoded = h.crc → (__load_blockbuffer crc s i).2 = Except.ok decoded))) ∧
    (∀ (crc : List Nat → Nat) (s : VaFsStreamR) (i j : Nat) (b : List Nat),
      (__load_blockbuffer crc s i).2 = Except.error LoadErr.crcMismatch →
      (__load_blockbuffer crc s j).2 = Except.ok b →
      (__load_blockbuffer crc ((__load_blockbuffer crc s i).1) j).2 =
        Except.ok b) := by
  constructor
  · intro crc s i h decoded hmiss hhead hbound hdec
    have hunfold : __load_blockbuffer crc s i =
        (if crc decoded ≠ h.crc then
          ({ s with cache := { s.cache with heatmap := __heatmap_hit s.cache.heatmap i } },
            Except.error LoadErr.crcMismatch)
        else
          ({ s with cache :=
              (vafs_cache_set { s.cache with heatmap := __heatmap_hit s.cache.heatmap i }
                i decoded decoded.length).1 },
            Except.ok decoded)) := by
      rw [load_miss_eq crc s i hmiss, __load_miss]
      simp only [hhead]
      rw [if_pos hbound]
      simp only [hdec]
    constructor
    · constructor
      · intro hne
        rw [hunfold, if_pos hne]
      · intro heq
        by_cases hne : crc decoded ≠ h.crc
        · exact hne
        · rw [hunfold, if_neg hne] at heq
          exact absurd heq (by simp)
    · intro heq
      rw [hunfold, if_neg (not_not_intro heq)]
  · intro crc s i j b hfail hok
    have hstate := load_fail_state crc s i LoadErr.crcMismatch hfail
    rw [hstate]
    exact (load_value_congr crc
      { s with cache := { s.cache with heatmap := __heatmap_hit s.cache.heatmap i } }
      s j rfl rfl rfl rfl).trans hok

/-- Witness for C2: a two-block stream with the byte-sum as CRC function;
block 1's stored CRC is wrong, so its load fails with the integrity error,
after which block 0 (whose CRC matches) still loads. -/
theorem crc_verified_on_load_witness :
    ((__load_blockbuffer (fun l => l.sum)
        ⟨8192, [⟨2, 0, 13⟩, ⟨2, 2, 999⟩], [6, 7, 8, 9], none, ⟨32, [], []⟩⟩
        1).2 = Except.error LoadErr.crcMismatch) ∧
      ((__load_blockbuffer (fun l => l.sum)
          ((__load_blockbuffer (fun l => l.sum)
            ⟨8192, [⟨2, 0, 13⟩, ⟨2, 2, 999⟩], [6, 7, 8, 9], none, ⟨32, [], []⟩⟩
            1).1)
          0).2 = Except.ok [6, 7]) := by
  have hmis := ((crc_verified_on_load.1 (fun l => l.sum)
    ⟨8192, [⟨2, 0, 13⟩, ⟨2, 2, 999⟩], [6, 7, 8, 9], none, ⟨32, [], []⟩⟩
    1 ⟨2, 2, 999⟩ [8, 9] rfl rfl (by decide) rfl).1).mp (by decide)
  have hok := (crc_verified_on_load.1 (fun l => l.sum)
    ⟨8192, [⟨2, 0, 13⟩, ⟨2, 2, 999⟩], [6, 7, 8, 9], none, ⟨32, [], []⟩⟩
    0 ⟨2, 0, 13⟩ [6, 7] rfl rfl (by decide) rfl).2 (by decide)
  exact ⟨hmis, crc_verified_on_load.2 (fun l => l.sum) _ 1 0 [6, 7] hmis hok⟩

/-! ### Full-range file reads (C8) -/

/-- C8 counterexample: a file of exactly one full block (8 KiB data block
size, 8192-byte file ending at the end of the final data block).  The
full-range read copies all 8192 bytes and then attempts to load a ninth
block that does not exist, so `vafs_file_read` reports failure instead of
returning the 8192 bytes. -/
theorem file_read_full_block_counterexample :
    vafs_file_read ⟨8192, [List.replicate 8192 0]⟩ 0 0 0 8192 = none := by
  have h2 : vafs_stream_read ⟨8192, [List.replicate 8192 0]⟩ 0 0 8192 = none := by
    rw [vafs_stream_read]
    norm_num
    rw [__stream_read_loop]
    norm_num
  rw [vafs_file_read]
  rw [show vafs_stream_seek ⟨8192, [List.replicate 8192 0]⟩ 0 (0 + 0) = some (0, 0) by
    rw [vafs_stream_seek, __stream_seek_loop]; norm_num]
  change (match vafs_stream_read ⟨8192, [List.replicate 8192 0]⟩ 0 0 8192 with
    | none => none
    | some (_, _, bytes) => some bytes) = none
  rw [h2]

/-- C8 (amended).  For a file whose payload occupies
`[dataIndex*B + dataOffset, … + fileLength)` in the uncompressed data
stream, a full-range read (seek to 0, read `fileLength` bytes) returns
exactly the `fileLength` payload bytes — provided the file is non-empty
and its end does not coincide with the end of the final data block.  (At
that boundary the bytes are copied but the call reports failure, and a
zero-length read is rejected with `EINVAL`.) -/
theorem file_read_full_range (B : Nat) (out : List Nat) (hB : 0 < B)
    (dataIndex dataOffset fileLength : Nat)
    (hpos : 1 ≤ fileLength)
    (hrange : dataIndex * B + dataOffset + fileLength ≤ out.length)
    (hend : dataIndex * B + dataOffset + fileLength = out.length →
      out.length % B ≠ 0) :
    vafs_file_read ⟨B, chunkBlocks B out⟩ dataIndex dataOffset 0 fileLength =
      some ((out.drop (dataIndex * B + dataOffset)).take fileLength) ∧
      ((out.drop (dataIndex * B + dataOffset)).take fileLength).length =
        fileLength := by
  have hflat : dataIndex * B + (dataOffset + 0) < out.length := by omega
  have hseek := vafs_stream_seek_spec B out hB dataIndex (dataOffset + 0) hflat
  have hqq : (dataIndex * B + (dataOffset + 0)) / B * B +
      (dataIndex * B + (dataOffset + 0)) % B = dataIndex * B + (dataOffset + 0) := by
    rw [Nat.mul_comm]
    exact Nat.div_add_mod _ B
  have hread := stream_read_loop_spec B hB out fileLength
    ((dataIndex * B + (dataOffset + 0)) / B)
    ((dataIndex * B + (dataOffset + 0)) % B) []
    (Nat.mod_lt _ hB) (by omega) (by intro hx; exact hend (by omega))
  constructor
  · rw [vafs_file_read, hseek]
    show (match vafs_stream_read ⟨B, chunkBlocks B out⟩
        ((dataIndex * B + (dataOffset + 0)) / B)
        ((dataIndex * B + (dataOffset + 0)) % B) fileLength with
      | none => none
      | some (_, _, bytes) => some bytes) = _
    rw [vafs_stream_read, if_neg (by omega : ¬ fileLength = 0), hread]
    rw [List.nil_append]
    rw [show (dataIndex * B + (dataOffset + 0)) / B * B +
        (dataIndex * B + (dataOffset + 0)) % B = dataIndex * B + dataOffset from by omega]
  · rw [List.length_take, List.length_drop]
    omega

/-- Witness for C8 (amended): a three-byte file in a single partial block
with an 8 KiB block size reads back as exactly its three payload bytes. -/
theorem file_read_full_range_witness :
    vafs_file_read ⟨8192, chunkBlocks 8192 [7, 8, 9]⟩ 0 0 0 3 = some [7, 8, 9] ∧
      (3 : Nat) = 3 := by
  have h := file_read_full_range 8192 [7, 8, 9] (by decide) 0 0 3 (by decide)
    (by decide) (by intro _; decide)
  refine ⟨h.1.trans ?_, rfl⟩
  decide

/-! ### Directory-load failure shape (C6) -/

theorem load_directory_loop_failure (s : RStream) :
    ∀ (count : Nat) (pos : Nat × Nat) (reader : VaFsDirectoryReader),
      (__load_directory_loop s count pos reader).2 = false →
      (__load_directory_loop s count pos reader).1.state = reader.state ∧
        ∃ parsed : List PDesc,
          (__load_directory_loop s count pos reader).1.entries =
            parsed ++ reader.entries := by
  intro count
  induction count with
  | zero =>
      intro pos reader hfail
      simp [__load_directory_loop] at hfail
  | succ k ih =>
      intro pos reader hfail
      rw [__load_directory_loop] at hfail
      cases hd : __read_descriptor s pos with
      | none =>
          rw [__load_directory_loop, hd]
          exact ⟨rfl, [], rfl⟩
      | some pd =>
          rw [hd] at hfail
          rw [__load_directory_loop, hd]
          have hfail2 :
              (__load_directory_loop s k pd.1
                { reader with entries := pd.2 :: reader.entries }).2 = false := hfail
          have := ih pd.1 { reader with entries := pd.2 :: reader.entries } hfail2
          refine ⟨this.1, ?_⟩
          rcases this.2 with ⟨parsed, hp⟩
          exact ⟨parsed ++ [pd.2], by simpa using hp⟩

/-- C6 counterexample: a two-entry listing whose first descriptor is a
valid symlink and whose second has an unknown type.  The load fails, but
the directory is left with the first entry prepended — the entry list is
not empty after the failed load. -/
theorem load_directory_partial_counterexample :
    (__load_directory
        ⟨8192, [[2, 0, 0, 0, 3, 0, 10, 0, 1, 0, 1, 0, 97, 98, 9, 0, 12, 0]]⟩
        ⟨VaFsDirectoryState.openState, []⟩ 0 0) =
      (⟨VaFsDirectoryState.openState, [PDesc.symlink [97] [98]]⟩, false) := by
  simp [__load_directory, vafs_stream_seek, __stream_seek_loop, stream_read_state,
    vafs_stream_read, __stream_read_loop, __load_directory_loop, __read_descriptor,
    __create_entry_from_descriptor, decodeU16, decodeU32, __get_descriptor_size,
    VA_FS_INVALID_BLOCK, VA_FS_DESCRIPTOR_TYPE_FILE, VA_FS_DESCRIPTOR_TYPE_DIRECTORY,
    VA_FS_DESCRIPTOR_TYPE_SYMLINK]

/-- C6 (amended).  When loading a read-mode directory's children fails, the
directory's state remains `Open` (so a retry re-runs the load), but the
entry list is not reset: the entries parsed before the failure remain
prepended to whatever the list held before. -/
theorem load_directory_failure_shape (s : RStream)
    (reader : VaFsDirectoryReader) (descIndex descOffset : Nat)
    (hfail : (__load_directory s reader descIndex descOffset).2 = false) :
    (__load_directory s reader descIndex descOffset).1.state = reader.state ∧
      ∃ parsed : List PDesc,
        (__load_directory s reader descIndex descOffset).1.entries =
          parsed ++ reader.entries := by
  rw [__load_directory] at hfail
  by_cases hinv : descIndex = VA_FS_INVALID_BLOCK
  · rw [if_pos hinv] at hfail
    simp at hfail
  · rw [if_neg hinv] at hfail
    revert hfail
    cases hseek : vafs_stream_seek s descIndex descOffset with
    | none =>
        rw [__load_directory, if_neg hinv, hseek]
        exact fun _ => ⟨rfl, [], rfl⟩
    | some pos =>
        have hval : __load_directory s reader descIndex descOffset =
            match stream_read_state s pos 4 with
            | none => (reader, false)
            | some (pos1, countBytes) =>
                __load_directory_loop s (decodeU32 countBytes) pos1 reader := by
          rw [__load_directory, if_neg hinv, hseek]
        rw [hval]
        cases hread : stream_read_state s pos 4 with
        | none => exact fun _ => ⟨rfl, [], rfl⟩
        | some pc =>
            intro hfail
            have hfail2 : (match stream_read_state s pos 4 with
                | none => (reader, false)
                | some (pos1, countBytes) =>
                    __load_directory_loop s (decodeU32 countBytes) pos1 reader).2 =
                false := hfail
            rw [hread] at hfail2
            exact load_directory_loop_failure s (decodeU32 pc.2) pc.1 reader hfail2

/-- Witness for C6 (amended), applied to the counterexample input: the
state stays open and the surviving entry list decomposes over the old
(empty) one. -/
theorem load_directory_failure_shape_witness :
    (__load_directory
        ⟨8192, [[2, 0, 0, 0, 3, 0, 10, 0, 1, 0, 1, 0, 97, 98, 9, 0, 12, 0]]⟩
        ⟨VaFsDirectoryState.openState, []⟩ 0 0).1.state =
      VaFsDirectoryState.openState ∧
      ∃ parsed : List PDesc,
        (__load_directory
            ⟨8192, [[2, 0, 0, 0, 3, 0, 10, 0, 1, 0, 1, 0, 97, 98, 9, 0, 12, 0]]⟩
            ⟨VaFsDirectoryState.openState, []⟩ 0 0).1.entries = parsed ++ [] := by
  have h := load_directory_failure_shape
    ⟨8192, [[2, 0, 0, 0, 3, 0, 10, 0, 1, 0, 1, 0, 97, 98, 9, 0, 12, 0]]⟩
    ⟨VaFsDirectoryState.openState, []⟩ 0 0
    (by rw [load_directory_partial_counterexample])
  exact h

/-- C10.  A root path (empty or a single separator) is answered by
`vafs_path_stat` with the hard-coded mode `S_IFDIR | 0755` and size 0,
regardless of the tree contents — in particular regardless of the 0777
permissions `vafs_directory_create_root` assigns to the writer root. -/
theorem path_stat_root_hardcoded :
    (∀ (fuel : Nat) (root : List StatTree) (path : List Char),
        __vafs_is_root_path path = true →
        vafs_path_stat fuel root path = some (S_IFDIR ||| 0o755, 0)) ∧
      wentryPermissions vafs_directory_create_root = 0o777 ∧
      (S_IFDIR ||| 0o755 : Nat) ≠
        S_IFDIR ||| wentryPermissions vafs_directory_create_root := by
  refine ⟨?_, rfl, by decide⟩
  intro fuel root path h
  rw [vafs_path_stat, if_pos h]

/-- Witness for C10: stat of the path consisting of one separator on a
tree whose root-level entries are nonempty with different permissions. -/
theorem path_stat_root_hardcoded_witness :
    vafs_path_stat 1 [StatTree.dir ['d'] 0o700 []] ['/'] =
      some (S_IFDIR ||| 0o755, 0) :=
  path_stat_root_hardcoded.1 1 [StatTree.dir ['d'] 0o700 []] ['/'] (by decide)

end VaFs

